import Mathlib

/-!
Shallow embedding of the jwilder/encoding repository (Go) and proofs about it.

The repository has three components:
* `simple8b/encoding.go` — the Simple8b word-aligned integer packer/unpacker,
  with a streaming `Encoder`/`Decoder` and bulk `EncodeAll`/`DecodeAll`.
* `delta/encoding.go` — delta and frame-of-reference transforms with a
  power-of-ten divisor (`reference10`, `FORDelta10`, …).
* the timestamp package — an adaptive codec choosing Packed / RLE / Raw frames.

Machine integers are modelled as `Nat` (for Go `uint64`, with explicit
`% 2^64` where Go wrapping can matter) and `Int` (for Go `int64`; all
verified paths stay inside the int64 range, which the theorems' hypotheses
enforce).  Go's `%` on int64 truncates while Lean's `%` on `Int` is
Euclidean; the two agree on the only use the code makes of `%` on possibly
negative values — the test `v % divisor == 0`, whose zero set is divisibility
in both conventions.  Likewise every `/` the code performs on a possibly
negative dividend is an exact division by a positive power of ten, where the
truncating and Euclidean conventions coincide.
-/

/-! ### Generic bit-manipulation lemmas used to reason about packed words -/

/-- Disjoint `or` is addition: if `a` occupies only the low `k` bits, or-ing a
multiple of `2^k` onto it is the same as adding it. -/
theorem lor_two_pow_mul (a b k : Nat) (ha : a < 2 ^ k) :
    a ||| 2 ^ k * b = a + 2 ^ k * b := by
  apply Nat.eq_of_testBit_eq
  intro i
  rw [Nat.testBit_lor]
  rcases Nat.lt_or_ge i k with hik | hik
  · have h1 : Nat.testBit (2 ^ k * b) i = false := by
      have hb : 2 ^ k * b = b <<< k := by rw [Nat.shiftLeft_eq]; ring
      rw [hb, Nat.testBit_shiftLeft]
      simp [Nat.not_le.mpr hik]
    rw [h1, Bool.or_false]
    have hk : 2 ^ k * b = 2 ^ i * (2 * (2 ^ (k - i - 1) * b)) := by
      rw [← Nat.mul_assoc, ← Nat.mul_assoc, ← pow_succ, ← pow_add]
      congr 2
      omega
    rw [Nat.testBit_to_div_mod, Nat.testBit_to_div_mod, hk,
      Nat.mul_comm (2 ^ i), Nat.add_mul_div_right _ _ (Nat.two_pow_pos i),
      Nat.add_mul_mod_self_left]
  · have h0 : Nat.testBit a i = false :=
      Nat.testBit_lt_two_pow (lt_of_lt_of_le ha (Nat.pow_le_pow_right (by norm_num) hik))
    rw [h0, Bool.false_or]
    have hpow : 2 ^ i = 2 ^ k * 2 ^ (i - k) := by
      rw [← pow_add]
      congr 1
      omega
    have hdiv : (a + 2 ^ k * b) / 2 ^ i = b / 2 ^ (i - k) := by
      rw [hpow, ← Nat.div_div_eq_div_mul,
        Nat.mul_comm (2 ^ k) b, Nat.add_mul_div_right _ _ (Nat.two_pow_pos k),
        Nat.div_eq_of_lt ha, Nat.zero_add]
    have hdiv2 : 2 ^ k * b / 2 ^ i = b / 2 ^ (i - k) := by
      rw [hpow, ← Nat.div_div_eq_div_mul,
        Nat.mul_comm (2 ^ k) b, Nat.mul_div_cancel _ (Nat.two_pow_pos k)]
    rw [Nat.testBit_to_div_mod, Nat.testBit_to_div_mod, hdiv, hdiv2]

/-! ### Simple8b codec (src/simple8b/encoding.go) -/

namespace Simple8b

/-- `MaxValue = (1 << 60) - 1`, the largest value Simple8b can store. -/
def MaxValue : Nat := 2 ^ 60 - 1

/-- Field accumulator shared by the sixteen hand-unrolled Go pack functions
(`pack60` … `pack1`).  The Go bodies are the fully unrolled form of this
recursion: `src[0] <<< sh ||| src[1] <<< (sh+bits) ||| …`. -/
def orFields (bits : Nat) : List Nat → Nat → Nat
  | [], _ => 0
  | x :: xs, sh => (x <<< sh) ||| orFields bits xs (sh + bits)

/-- A packed word: the 4-bit selector in the top bits or-ed with the packed
fields.  Go computes each `|` and `<<` on `uint64`; since truncation to 64
bits commutes with `|||` and is idempotent, a single `% 2^64` on the whole
expression is equivalent to Go's per-operation wrapping. -/
def packWord (sel bits : Nat) (vals : List Nat) : Nat :=
  ((sel <<< 60) ||| orFields bits vals 0) % 2 ^ 64

/-- pack60 packs 60 values from src using 1 bit each (selector 2). -/
def pack60 (src : List Nat) : Nat := packWord 2 1 (src.take 60)

/-- pack30 packs 30 values from src using 2 bits each (selector 3). -/
def pack30 (src : List Nat) : Nat := packWord 3 2 (src.take 30)

/-- pack20 packs 20 values from src using 3 bits each (selector 4). -/
def pack20 (src : List Nat) : Nat := packWord 4 3 (src.take 20)

/-- pack15 packs 15 values from src using 4 bits each (selector 5). -/
def pack15 (src : List Nat) : Nat := packWord 5 4 (src.take 15)

/-- pack12 packs 12 values from src using 5 bits each (selector 6). -/
def pack12 (src : List Nat) : Nat := packWord 6 5 (src.take 12)

/-- pack10 packs 10 values from src using 6 bits each (selector 7). -/
def pack10 (src : List Nat) : Nat := packWord 7 6 (src.take 10)

/-- pack8 packs 8 values from src using 7 bits each (selector 8). -/
def pack8 (src : List Nat) : Nat := packWord 8 7 (src.take 8)

/-- pack7 packs 7 values from src using 8 bits each (selector 9). -/
def pack7 (src : List Nat) : Nat := packWord 9 8 (src.take 7)

/-- pack6 packs 6 values from src using 10 bits each (selector 10). -/
def pack6 (src : List Nat) : Nat := packWord 10 10 (src.take 6)

/-- pack5 packs 5 values from src using 12 bits each (selector 11). -/
def pack5 (src : List Nat) : Nat := packWord 11 12 (src.take 5)

/-- pack4 packs 4 values from src using 15 bits each (selector 12). -/
def pack4 (src : List Nat) : Nat := packWord 12 15 (src.take 4)

/-- pack3 packs 3 values from src using 20 bits each (selector 13). -/
def pack3 (src : List Nat) : Nat := packWord 13 20 (src.take 3)

/-- pack2 packs 2 values from src using 30 bits each (selector 14). -/
def pack2 (src : List Nat) : Nat := packWord 14 30 (src.take 2)

/-- pack1 packs 1 value from src using 60 bits (selector 15). -/
def pack1 (src : List Nat) : Nat := packWord 15 60 (src.take 1)

/-- canPack returns true if n elements from src can be stored using bits per
element.  Mirrors Go `canPack`: a length check, then for `bits == 0`
(selectors 0 and 1) an all-ones check over the ENTIRE remaining `src`, else a
bound check over the first `n` values (`end = min n (len src) = n` once the
length check passed). -/
def canPack (src : List Nat) (n bits : Nat) : Bool :=
  if src.length < n then false
  else if bits == 0 then src.all (fun v => v == 1)
  else (src.take n).all (fun v => decide (v ≤ 2 ^ bits - 1))

/-- The greedy selector cascade shared verbatim by Go's `Encode` and the loop
body of `EncodeAll`: try selectors in order of decreasing `n` and emit the
first word that fits, together with how many values it consumed.  `none`
corresponds to reaching the final `else` (no selector accepts). -/
def encodeFirstWord (src : List Nat) : Option (Nat × Nat) :=
  if canPack src 240 0 then some (0, 240)
  else if canPack src 120 0 then some (1 <<< 60, 120)
  else if canPack src 60 1 then some (pack60 src, 60)
  else if canPack src 30 2 then some (pack30 src, 30)
  else if canPack src 20 3 then some (pack20 src, 20)
  else if canPack src 15 4 then some (pack15 src, 15)
  else if canPack src 12 5 then some (pack12 src, 12)
  else if canPack src 10 6 then some (pack10 src, 10)
  else if canPack src 8 7 then some (pack8 src, 8)
  else if canPack src 7 8 then some (pack7 src, 7)
  else if canPack src 6 10 then some (pack6 src, 6)
  else if canPack src 5 12 then some (pack5 src, 5)
  else if canPack src 4 15 then some (pack4 src, 4)
  else if canPack src 3 20 then some (pack3 src, 3)
  else if canPack src 2 30 then some (pack2 src, 2)
  else if canPack src 1 60 then some (pack1 src, 1)
  else none

/-- Go `Encode`: pack as many values as possible into one word.  On the
cascade's final `else`, a non-empty `src` is an out-of-range error (`none`
models Go's `(0, 0, err)` return) and an empty `src` returns `(0, 0)`. -/
def Encode (src : List Nat) : Option (Nat × Nat) :=
  match encodeFirstWord src with
  | some r => some r
  | none => if src.length > 0 then none else some (0, 0)

/-- Fuel-indexed loop of Go `EncodeAll`.  Every successful step consumes at
least one value, so fuel `src.length` (supplied by `EncodeAll`) is always
enough; the fuel-exhausted branch is unreachable from that entry point. -/
def encodeAllLoop : Nat → List Nat → Option (List Nat)
  | _, [] => some []
  | 0, _ :: _ => none
  | fuel + 1, x :: xs =>
    match encodeFirstWord (x :: xs) with
    | none => none
    | some (w, n) => (encodeAllLoop fuel ((x :: xs).drop n)).map (fun ws => w :: ws)

/-- Go `EncodeAll`: greedily pack the whole input into a list of words, or
report an out-of-range error (`none`). -/
def EncodeAll (src : List Nat) : Option (List Nat) :=
  encodeAllLoop src.length src

/-- Per-selector value count `n`, row of the Go `selector` table. -/
def selN : Nat → Nat
  | 0 => 240
  | 1 => 120
  | 2 => 60
  | 3 => 30
  | 4 => 20
  | 5 => 15
  | 6 => 12
  | 7 => 10
  | 8 => 8
  | 9 => 7
  | 10 => 6
  | 11 => 5
  | 12 => 4
  | 13 => 3
  | 14 => 2
  | 15 => 1
  | _ => 0

/-- Per-selector field width `bit`, row of the Go `selector` table. -/
def selBits : Nat → Nat
  | 2 => 1
  | 3 => 2
  | 4 => 3
  | 5 => 4
  | 6 => 5
  | 7 => 6
  | 8 => 7
  | 9 => 8
  | 10 => 10
  | 11 => 12
  | 12 => 15
  | 13 => 20
  | 14 => 30
  | 15 => 60
  | _ => 0

/-- The list of fields a Go `unpackN` function (selectors 2–15) extracts:
field `i` is `(v >> (i*bits)) & ((1<<bits)-1)`, exactly the unrolled Go
bodies. -/
def unpackFields (bits n : Nat) (v : Nat) : List Nat :=
  (List.range n).map (fun i => (v >>> (i * bits)) &&& (2 ^ bits - 1))

/-- The sequence of destination slots written by the unpack function of the
word's selector, in order, starting at the unpack destination's slot 0.
Selectors 0 and 1 (`unpack240`, `unpack120`) write the value 1 into ALL 240
slots (`for i := range dst { dst[i] = 1 }`); selectors 2–15 write exactly
their `n` extracted fields. -/
def unpackWord (v : Nat) : List Nat :=
  if v >>> 60 ≤ 1 then List.replicate 240 1
  else unpackFields (selBits (v >>> 60)) (selN (v >>> 60)) v

/-- Overwrite `dst` starting at index `j` with the values `vs` (models Go
writing into a slice/array at an offset). -/
def writeAt (dst : List Nat) (j : Nat) (vs : List Nat) : List Nat :=
  dst.take j ++ vs ++ dst.drop (j + vs.length)

/-- Go `Decode`: single-word unpack into a 240-slot destination buffer.
Returns the updated buffer and the number of decoded values, or `none` for an
invalid selector (`sel >= 16`, impossible for a real 64-bit word). -/
def Decode (dst : List Nat) (v : Nat) : Option (List Nat × Nat) :=
  if v >>> 60 ≥ 16 then none
  else some (writeAt dst 0 (unpackWord v), selN (v >>> 60))

/-- Loop of Go `DecodeAll`: each word's unpack function writes at offset `j`
of `dst` (Go does this through an unsafe `*[240]uint64` pointer at `&dst[j]`),
then `j` advances by the selector's value count — for selectors 0/1 the
unpack writes 240 ones but `j` advances by `n` (240 or 120). -/
def decodeAllLoop (dst : List Nat) (j : Nat) : List Nat → Option (List Nat × Nat)
  | [] => some (dst, j)
  | w :: ws =>
    if w >>> 60 ≥ 16 then none
    else decodeAllLoop (writeAt dst j (unpackWord w)) (j + selN (w >>> 60)) ws

/-- Go `DecodeAll`: write the uncompressed values of the words `src` into
`dst`, returning the final buffer and the number of values written. -/
def DecodeAll (dst src : List Nat) : Option (List Nat × Nat) :=
  decodeAllLoop dst 0 src

/-- Big-endian serialization of one 64-bit word, as produced by Go
`binary.BigEndian.PutUint64` (`b[0] = byte(v>>56)`, …, `b[7] = byte(v)`). -/
def word8BE (v : Nat) : List Nat :=
  [(v >>> 56) % 256, (v >>> 48) % 256, (v >>> 40) % 256, (v >>> 32) % 256,
   (v >>> 24) % 256, (v >>> 16) % 256, (v >>> 8) % 256, v % 256]

/-- Go `binary.BigEndian.Uint64` over (the first 8 entries of) a byte list:
`uint64(b[7]) | uint64(b[6])<<8 | … | uint64(b[0])<<56`. -/
def beUint64 (b : List Nat) : Nat :=
  b.getD 7 0 ||| b.getD 6 0 <<< 8 ||| b.getD 5 0 <<< 16 ||| b.getD 4 0 <<< 24 |||
  b.getD 3 0 <<< 32 ||| b.getD 2 0 <<< 40 ||| b.getD 1 0 <<< 48 ||| b.getD 0 0 <<< 56

/-- State of the streaming Go `Encoder`.  The backing array `buf` has fixed
length 240 (`NewEncoder`); its live region `buf[h:t]` is `pending`, so the Go
tail index `t` is `h + pending.length`.  `words` records the 8-byte words
flushed so far: the Go `bytes`/`bp` buffer bookkeeping (copy into
`bytes[bp:bp+8]` while room, `append` beyond) always yields exactly the
concatenation of the flushed words, which `Bytes` returns as `bytes[:bp]`. -/
structure Enc where
  pending : List Nat
  h : Nat
  words : List Nat

/-- A fresh streaming encoder (`NewEncoder`). -/
def Enc.init : Enc := ⟨[], 0, []⟩

/-- Go `Encoder.flush`: a no-op when `t == 0`; otherwise pack one word from
`buf[h:t]`, append it, advance the head by the number of values consumed, and
reset both indices when the buffer fully drained (`h == t`). -/
def flush (e : Enc) : Option Enc :=
  if e.h + e.pending.length == 0 then some e
  else
    match Encode e.pending with
    | none => none
    | some (w, n) =>
      if n == e.pending.length then some ⟨[], 0, e.words ++ [w]⟩
      else some ⟨e.pending.drop n, e.h + n, e.words ++ [w]⟩

/-- Go `Encoder.Write`: flush when the tail reached the backing capacity 240,
then shift the live region down to the buffer start if the tail is still at
capacity (`copy(e.buf, e.buf[e.h:]); e.t -= e.h; e.h = 0`), then append `v`.
A flush error propagates and `v` is not appended. -/
def write (e : Enc) (v : Nat) : Option Enc :=
  (if e.h + e.pending.length ≥ 240 then flush e else some e).bind fun e1 =>
    let e2 := if e1.h + e1.pending.length ≥ 240 then { e1 with h := 0 } else e1
    some { e2 with pending := e2.pending ++ [v] }

/-- Feed a list of values through `write`, propagating the first error. -/
def writeList : Enc → List Nat → Option Enc
  | e, [] => some e
  | e, v :: vs => (write e v).bind fun e2 => writeList e2 vs

/-- Go's call pattern `enc.Write(v)` with the error result discarded (as the
timestamp `encodePacked` does): on a write error the encoder state is
unchanged and `v` is dropped. -/
def writeIgn (e : Enc) (v : Nat) : Enc :=
  match write e v with
  | some e2 => e2
  | none => e

/-- The `for e.t > 0 { flush }` loop of Go `Encoder.Bytes`.  Each successful
flush of a non-empty buffer consumes at least one value, so fuel
`pending.length` always suffices; the fuel-exhausted branch is unreachable
from `Bytes`. -/
def drainLoop : Nat → Enc → Option (List Nat)
  | 0, e => if e.h + e.pending.length == 0 then some e.words else none
  | fuel + 1, e =>
    if e.h + e.pending.length == 0 then some e.words
    else (flush e).bind (drainLoop fuel)

/-- Go `Encoder.Bytes`: drain the buffer, then return all written bytes (the
concatenation of the big-endian flushed words), or the first packing error. -/
def Bytes (e : Enc) : Option (List Nat) :=
  (drainLoop e.pending.length e).map (fun ws => ws.flatMap word8BE)

/-- Bytes produced by feeding `xs` through a fresh streaming encoder and
calling `Bytes()`. -/
def streamBytes (xs : List Nat) : Option (List Nat) :=
  (writeList Enc.init xs).bind Bytes

/-- Bytes produced by the bulk encoder: each word of `EncodeAll`, serialized
as 8 big-endian bytes, in order. -/
def bulkBytes (xs : List Nat) : Option (List Nat) :=
  (EncodeAll xs).map (fun ws => ws.flatMap word8BE)

/-- The successive full 8-byte big-endian words at the front of a byte
stream; a trailing fragment of fewer than 8 bytes is ignored (Go
`Decoder.read` returns without consuming when `len(d.bytes) < 8`). -/
def wordsOf : List Nat → List Nat
  | b0 :: b1 :: b2 :: b3 :: b4 :: b5 :: b6 :: b7 :: rest =>
    beUint64 [b0, b1, b2, b3, b4, b5, b6, b7] :: wordsOf rest
  | _ => []

/-- The value sequence yielded by the streaming Go `Decoder` (`Next`/`Read`)
over a byte stream: every full word refills the 240-slot buffer via its
selector's unpack function and `Read` yields its first `n` slots before the
next word is consumed.  (`Decode`'s invalid-selector error inside
`Decoder.read` is ignored by the Go code and cannot fire on a real 64-bit
word.) -/
def streamValues (bs : List Nat) : List Nat :=
  (wordsOf bs).flatMap fun w => (unpackWord w).take (selN (w >>> 60))

end Simple8b

/-! ### Delta / FOR transform (src/delta/encoding.go) -/

namespace Delta

/-- The inner divisor loop of `reference10` (and of the timestamp encoder's
`reduce`): `for { if v % divisor == 0 { break }; divisor /= 10 }`.  Starting
from the initial divisor `10^12` the loop runs at most 12 steps, because
`v % 1 == 0` always holds for an `int64`, so the callers' fuel `13` is always
enough and the fuel-exhausted branch is unreachable.  The divisor stays a
nonnegative power of ten, hence is modelled as `Nat`. -/
def divisorShrink : Nat → Nat → Int → Nat
  | 0, d, _ => d
  | fuel + 1, d, v => if v % (d : Int) = 0 then d else divisorShrink fuel (d / 10) v

/-- One iteration of the `min`/`max`/`divisor` accumulation shared by Go
`reference10` (ascending loop, `i == 0` skipped) and the timestamp encoder's
`reduce` (descending loop): `if v < min { min = v }`, `if v > max { max = v }`,
then shrink the divisor until it divides `v`. -/
def mmdStep (acc : Int × Int × Nat) (v : Int) : Int × Int × Nat :=
  ((if v < acc.1 then v else acc.1),
   (if v > acc.2.1 then v else acc.2.1),
   divisorShrink 13 acc.2.2 v)

/-- Go `reference10` (the later, three-result version at
src/delta/encoding.go:157-181): fold `mmdStep` over the elements at indices
`1..end`, starting from `min = src[0]`, `max = 0`, `divisor = 10^12`.
(Go would panic on an empty `src` at `src[0]`; `headI` defaults to 0 and the
claims only concern `len(src) ≥ 1`.) -/
def reference10 (src : List Int) : Int × Int × Nat :=
  src.tail.foldl mmdStep (src.headI, 0, 10 ^ 12)

end Delta

/-! ### Timestamp adaptive codec (the unnamed `timestamp` package, final
version: src/unnamed/part_001, `encoder.reduce`/`Bytes`/`encodeRLE`/… and
`decoder.decode`/`decodeRLE`/`decodePacked`/`decodeRaw`) -/

namespace Timestamp

/-- Two's-complement conversion `uint64(x)` of an `int64` value. -/
def u64ofInt (x : Int) : Nat := (x % (2 : Int) ^ 64).toNat

/-- Two's-complement conversion `int64(n)` of a `uint64` value. -/
def i64ofU64 (n : Nat) : Int := if n < 2 ^ 63 then (n : Int) else (n : Int) - 2 ^ 64

/-- The delta-encoded form of a sequence: index 0 keeps the absolute first
value, index `i ≥ 1` holds `ts[i] - ts[i-1]` (both `delta.Delta` and the
in-place differencing loop of the timestamp `reduce` compute this). -/
def deltaList (ts : List Int) : List Int :=
  match ts with
  | [] => []
  | t0 :: rest => t0 :: List.zipWith (fun a b => a - b) rest ts

/-- Consecutive-equality of a list, the accumulated value of the Go flag
`rle = i == 1 || rle && (deltas[i-1] == deltas[i])` over the scaled values at
indices ≥ 1 (the `i == 1` disjunct seeds the accumulation, so index 0 is
never compared). -/
def consecEq : List Int → Bool
  | [] => true
  | [_] => true
  | a :: b :: r => a == b && consecEq (b :: r)

/-- Go `encoder.reduce`: returns `(min, max, divisor, rle, deltas)` where
`deltas` is the delta-encoded (index 0 untouched) and then FOR-scaled
(`(d - min) / divisor` at indices ≥ 1) sequence.  `min` starts from
`e.ts[0]`, `max` from 0, `divisor` from `10^12`; the Go loop accumulates them
over indices `len-1 … 1` (descending), which the fold over the reversed
delta tail mirrors.  `rle` holds iff the scaled values at indices ≥ 1 are
all equal and the sequence has more than one element.  The scaling division
has a nonnegative dividend (`min ≤ d`) and positive divisor, where Go's
truncating division and Lean's `/` agree. -/
def encReduce (ts : List Int) : Int × Int × Nat × Bool × List Int :=
  match ts with
  | [] => (0, 0, 10 ^ 12, false, [])
  | t0 :: _ =>
    let dtail := List.zipWith (fun a b => a - b) ts.tail ts
    let acc := dtail.reverse.foldl Delta.mmdStep (t0, 0, 10 ^ 12)
    let scaledTail := dtail.map fun v => (v - acc.1) / (acc.2.2 : Int)
    (acc.1, acc.2.1, acc.2.2,
     consecEq scaledTail && decide (ts.length > 1), t0 :: scaledTail)

/-- Models `byte(math.Log10(float64(m)))` for the only values the code feeds
it: exact powers of ten `10^e` with `0 ≤ e ≤ 12`, on which the float64
computation yields exactly `e` (both `10^e` and `e` are exactly representable
in float64). -/
def log10Fuel : Nat → Nat → Nat
  | 0, _ => 0
  | fuel + 1, m => if m < 10 then 0 else log10Fuel fuel (m / 10) + 1

/-- Integer base-10 logarithm of a power of ten up to `10^12` (fuel 13). -/
def log10Nat (m : Nat) : Nat := log10Fuel 13 m

/-- The byte-building loop of Go `binary.PutUvarint`:
`for x >= 0x80 { buf[i] = byte(x) | 0x80; x >>= 7 }; buf[i] = byte(x)`.
A `uint64` needs at most 10 bytes (9 shifts leave `x >>> 63 ≤ 1 < 0x80`), so
the callers' fuel 10 is always enough for `x < 2^64`. -/
def putUvarintLoop : Nat → Nat → List Nat
  | 0, x => [x % 256]
  | fuel + 1, x =>
    if x < 128 then [x] else ((x % 256) ||| 128) :: putUvarintLoop fuel (x >>> 7)

/-- Go `binary.PutUvarint` output bytes for a `uint64`. -/
def putUvarint (x : Nat) : List Nat := putUvarintLoop 10 x

/-- Go `binary.Uvarint`'s scan loop with its running state (byte index `i`,
accumulator `x`, shift `s`).  Returns the decoded value and the signed byte
count: `0` when the buffer ran out, `-11`/`-10` on 64-bit overflow (the Go
returns `0, -(i+1)`), and `i+1` on success.  The `uint64` shift of each
7-bit group wraps modulo `2^64` exactly as in Go. -/
def uvarintLoop : List Nat → Nat → Nat → Nat → Nat × Int
  | [], _, _, _ => (0, 0)
  | b :: rest, i, x, s =>
    if i == 10 then (0, -11)
    else if b < 128 then
      (if i == 9 && b > 1 then (0, -10) else (x ||| (b <<< s) % 2 ^ 64, (i : Int) + 1))
    else uvarintLoop rest (i + 1) (x ||| ((b &&& 127) <<< s) % 2 ^ 64) (s + 7)

/-- Go `binary.Uvarint`. -/
def uvarint (bs : List Nat) : Nat × Int := uvarintLoop bs 0 0 0

/-- The prefix-sum loop `dst[i] = dst[i-1] + src[i]` (with `dst[0] = src[0]`)
shared by `delta.InverseDelta` and the decode paths of the timestamp codec. -/
def prefixSumFrom (acc : Int) : List Int → List Int
  | [] => []
  | y :: r => (acc + y) :: prefixSumFrom (acc + y) r

/-- Prefix sums of a list, first element unchanged. -/
def prefixSum : List Int → List Int
  | [] => []
  | x :: rest => x :: prefixSumFrom x rest

/-- Go `encoder.encodeRLE`: header byte `(EncodingRLE << 4) | log10(mod)`,
8 big-endian bytes of `first`, then varints of `delta / mod` and `n`, with
the 31-byte scratch buffer truncated to the bytes written (`b[:i]`), i.e.
exactly this concatenation.  Every caller passes a `mod` dividing `delta`,
so the `int64` division is exact and convention-independent. -/
def encodeRLE (first delta : Int) (mod : Nat) (n : Nat) : List Nat :=
  ((1 <<< 4) ||| log10Nat mod) ::
    (Simple8b.word8BE (u64ofInt first) ++
     putUvarint (u64ofInt (delta / (mod : Int))) ++ putUvarint n)

/-- Go `encoder.encodeRaw`: header byte `EncodingRaw << 4`, then every
buffered value as 8 big-endian bytes. -/
def encodeRaw (ts : List Int) : List Nat :=
  (2 <<< 4) :: ts.flatMap fun v => Simple8b.word8BE (u64ofInt v)

/-- Go `encoder.encodePacked`: write `dts[1:]` into a fresh streaming
Simple8b encoder (`enc.Write(uint64(v))`, error result discarded), then emit
header byte `(EncodingPacked << 4) | log10(mod)`, 8 big-endian bytes each of
`min` and `dts[0]`, and the encoder's `Bytes()` (whose error aborts with
`none`). -/
def encodePacked (min : Int) (mod : Nat) (dts : List Int) : Option (List Nat) :=
  (Simple8b.Bytes ((dts.tail.map u64ofInt).foldl Simple8b.writeIgn Simple8b.Enc.init)).map
    fun body =>
      ((0 <<< 4) ||| log10Nat mod) ::
        (Simple8b.word8BE (u64ofInt min) ++ Simple8b.word8BE (u64ofInt dts.headI) ++ body)

/-- Go `encoder.Bytes`: empty buffer yields empty bytes; otherwise `reduce`
and choose RLE (`rle && len(ts) > 60`, encoding `ts[0]`, `ts[1]-ts[0]`,
`mod`, `len(ts)`), else Raw (`max > simple8b.MaxValue`), else Packed. -/
def tsBytes (ts : List Int) : Option (List Nat) :=
  if ts.isEmpty then some []
  else
    match encReduce ts with
    | (min, max, mod, rle, dts) =>
      if rle && decide (ts.length > 60) then
        some (encodeRLE ts.headI (ts.tail.headI - ts.headI) mod ts.length)
      else if max > (2 : Int) ^ 60 - 1 then some (encodeRaw ts)
      else encodePacked min mod dts

/-- Go `decoder.decodeRaw`: read `len(b)/8` full big-endian 8-byte values;
never panics. -/
def decodeRaw (b : List Nat) : List Int :=
  (List.range (b.length / 8)).map fun i =>
    i64ofU64 (Simple8b.beUint64 ((b.drop (8 * i)).take 8))

/-- Go `decoder.decodeRLE`.  `none` models a Go runtime panic:
slicing `b[i:i+8]` with `len(b) < 9`; re-slicing `b[i:]` after the first
varint with a negative or past-the-end `i` (Go `Uvarint` returns a negative
byte count on overflow); or `deltas[0] = int64(first)` on a zero `count`.
Otherwise the result is `count` timestamps: `first`, then prefix sums of the
run value `value * mod` (the multiplication wraps as `uint64`). -/
def decodeRLE (b : List Nat) : Option (List Int) :=
  let mod : Nat := 10 ^ (b.headD 0 &&& 15)
  if b.length < 9 then none
  else
    let first := Simple8b.beUint64 ((b.drop 1).take 8)
    let p1 := uvarint (b.drop 9)
    let value := p1.1 * mod % 2 ^ 64
    let i : Int := 9 + p1.2
    if i < 0 ∨ (b.length : Int) < i then none
    else
      let count := (uvarint (b.drop i.toNat)).1
      if count = 0 then none
      else
        some (prefixSum (i64ofU64 first :: List.replicate (count - 1) (i64ofU64 value)))

/-- Go `decoder.decodePacked`.  `none` models the Go runtime panic of slicing
`b[1:9]`/`b[9:17]` when `len(b) < 17`.  Otherwise the timestamps are the
prefix sums of `first` followed by the streaming-Simple8b-decoded values
scaled back up (`deltas[i]*mod + min`). -/
def decodePacked (b : List Nat) : Option (List Int) :=
  let mod : Int := (10 : Int) ^ (b.headD 0 &&& 15)
  if b.length < 17 then none
  else
    let min := i64ofU64 (Simple8b.beUint64 ((b.drop 1).take 8))
    let first := i64ofU64 (Simple8b.beUint64 ((b.drop 9).take 8))
    let deltas := (Simple8b.streamValues (b.drop 17)).map fun v => i64ofU64 v
    some (prefixSum (first :: deltas.map fun d => d * mod + min))

/-- Go `decoder.decode`: empty input leaves the timestamp list empty;
otherwise dispatch on the tag in the upper nibble of `b[0]`
(2 = Raw on `b[1:]`, 1 = RLE, anything else = Packed). -/
def tsDecode (b : List Nat) : Option (List Int) :=
  if b.isEmpty then some []
  else
    match b.headD 0 >>> 4 with
    | 2 => some (decodeRaw (b.drop 1))
    | 1 => decodeRLE b
    | _ => decodePacked b

end Timestamp

/-! ### Lemmas: packed-word structure -/

namespace Simple8b

/-- Arithmetic value of a little-endian sequence of `bits`-wide fields. -/
def valFields (bits : Nat) : List Nat → Nat
  | [] => 0
  | x :: xs => x + 2 ^ bits * valFields bits xs

theorem valFields_lt (bits : Nat) (vals : List Nat)
    (hv : ∀ x ∈ vals, x < 2 ^ bits) :
    valFields bits vals < 2 ^ (bits * vals.length) := by
  induction vals with
  | nil => simp [valFields]
  | cons x xs ih =>
    have hx : x < 2 ^ bits := hv x (by simp)
    have ht : valFields bits xs < 2 ^ (bits * xs.length) :=
      ih (fun y hy => hv y (by simp [hy]))
    have : x + 2 ^ bits * valFields bits xs + 1 ≤ 2 ^ bits * 2 ^ (bits * xs.length) := by
      calc x + 2 ^ bits * valFields bits xs + 1
          ≤ 2 ^ bits + 2 ^ bits * valFields bits xs := by omega
        _ = 2 ^ bits * (valFields bits xs + 1) := by ring
        _ ≤ 2 ^ bits * 2 ^ (bits * xs.length) :=
            Nat.mul_le_mul_left _ (by omega)
    calc valFields bits (x :: xs) < 2 ^ bits * 2 ^ (bits * xs.length) := by
          simp only [valFields]; omega
      _ = 2 ^ (bits * (x :: xs).length) := by
          rw [← pow_add]; congr 1; simp [List.length_cons]; ring

theorem orFields_eq (bits : Nat) (vals : List Nat) :
    ∀ (sh : Nat), (∀ x ∈ vals, x < 2 ^ bits) →
      orFields bits vals sh = 2 ^ sh * valFields bits vals := by
  induction vals with
  | nil => intro sh _; simp [orFields, valFields]
  | cons x xs ih =>
    intro sh hv
    have hx : x < 2 ^ bits := hv x (by simp)
    have htail := ih (sh + bits) (fun y hy => hv y (by simp [hy]))
    simp only [orFields, valFields, htail, Nat.shiftLeft_eq]
    have hsh : (2 : Nat) ^ (sh + bits) = 2 ^ sh * 2 ^ bits := pow_add 2 sh bits
    have hlt : x * 2 ^ sh < 2 ^ (sh + bits) := by
      rw [hsh]
      calc x * 2 ^ sh < 2 ^ bits * 2 ^ sh :=
            (Nat.mul_lt_mul_right (Nat.two_pow_pos sh)).mpr hx
        _ = 2 ^ sh * 2 ^ bits := Nat.mul_comm _ _
    have := lor_two_pow_mul (x * 2 ^ sh) (valFields bits xs) (sh + bits) hlt
    rw [this, hsh]
    ring

theorem extract_field (bits : Nat) (vals : List Nat) :
    ∀ (H j : Nat), j < vals.length → (∀ x ∈ vals, x < 2 ^ bits) →
      ((valFields bits vals + 2 ^ (bits * vals.length) * H) >>> (j * bits)) &&&
        (2 ^ bits - 1) = vals.getD j 0 := by
  induction vals with
  | nil => intro H j hj _; simp at hj
  | cons x xs ih =>
    intro H j hj hv
    have hx : x < 2 ^ bits := hv x (by simp)
    have hre : valFields bits (x :: xs) + 2 ^ (bits * (x :: xs).length) * H =
        x + 2 ^ bits * (valFields bits xs + 2 ^ (bits * xs.length) * H) := by
      simp only [valFields, List.length_cons]
      have : bits * (xs.length + 1) = bits + bits * xs.length := by ring
      rw [this, pow_add]
      ring
    rw [hre]
    match j with
    | 0 =>
      simp only [Nat.zero_mul, Nat.shiftRight_zero, List.getD_cons_zero]
      rw [Nat.and_pow_two_sub_one_eq_mod, Nat.add_mul_mod_self_left,
        Nat.mod_eq_of_lt hx]
    | j + 1 =>
      have hstep : (j + 1) * bits = bits + j * bits := by ring
      rw [hstep, Nat.shiftRight_add]
      have hdiv : (x + 2 ^ bits * (valFields bits xs + 2 ^ (bits * xs.length) * H)) >>> bits =
          valFields bits xs + 2 ^ (bits * xs.length) * H := by
        rw [Nat.shiftRight_eq_div_pow, Nat.mul_comm (2 ^ bits),
          Nat.add_mul_div_right _ _ (Nat.two_pow_pos bits),
          Nat.div_eq_of_lt hx, Nat.zero_add]
      rw [hdiv]
      have hj' : j < xs.length := by simpa using hj
      simpa using ih H j hj' (fun y hy => hv y (by simp [hy]))

theorem packWord_eq (sel bits : Nat) (vals : List Nat) (hsel : sel ≤ 15)
    (hlen : bits * vals.length ≤ 60) (hv : ∀ x ∈ vals, x < 2 ^ bits) :
    packWord sel bits vals = valFields bits vals + 2 ^ 60 * sel := by
  have hV : orFields bits vals 0 = valFields bits vals := by
    simpa using orFields_eq bits vals 0 hv
  have hVlt : valFields bits vals < 2 ^ 60 :=
    lt_of_lt_of_le (valFields_lt bits vals hv) (Nat.pow_le_pow_right (by norm_num) hlen)
  have hcomm : (sel <<< 60) ||| orFields bits vals 0 =
      valFields bits vals + 2 ^ 60 * sel := by
    rw [hV, Nat.lor_comm, Nat.shiftLeft_eq, Nat.mul_comm sel]
    exact lor_two_pow_mul _ sel 60 hVlt
  have hlt : valFields bits vals + 2 ^ 60 * sel < 2 ^ 64 := by
    have : 2 ^ 60 * sel ≤ 2 ^ 60 * 15 := Nat.mul_le_mul_left _ hsel
    omega
  rw [packWord, hcomm, Nat.mod_eq_of_lt hlt]

theorem packWord_sel (sel bits : Nat) (vals : List Nat) (hsel : sel ≤ 15)
    (hlen : bits * vals.length ≤ 60) (hv : ∀ x ∈ vals, x < 2 ^ bits) :
    packWord sel bits vals >>> 60 = sel := by
  rw [packWord_eq sel bits vals hsel hlen hv]
  have hVlt : valFields bits vals < 2 ^ 60 :=
    lt_of_lt_of_le (valFields_lt bits vals hv) (Nat.pow_le_pow_right (by norm_num) hlen)
  rw [Nat.shiftRight_eq_div_pow, Nat.mul_comm (2 ^ 60),
    Nat.add_mul_div_right _ _ (by norm_num : 0 < 2 ^ 60),
    Nat.div_eq_of_lt hVlt, Nat.zero_add]

theorem packWord_unpack (sel bits : Nat) (vals : List Nat) (hsel : sel ≤ 15)
    (hlen : bits * vals.length ≤ 60)
    (hv : ∀ x ∈ vals, x < 2 ^ bits) :
    unpackFields bits vals.length (packWord sel bits vals) = vals := by
  have hsplit : (2 : Nat) ^ 60 * sel =
      2 ^ (bits * vals.length) * (2 ^ (60 - bits * vals.length) * sel) := by
    rw [← Nat.mul_assoc, ← pow_add]
    congr 2
    omega
  apply List.ext_getElem
  · simp [unpackFields]
  · intro j hj1 hj2
    have hjlen : j < vals.length := hj2
    have hx := extract_field bits vals (2 ^ (60 - bits * vals.length) * sel) j hjlen hv
    simp only [unpackFields, List.getElem_map, List.getElem_range]
    rw [packWord_eq sel bits vals hsel hlen hv, hsplit]
    rw [hx]
    exact List.getD_eq_getElem vals 0 hjlen


theorem canPack_pos_iff (src : List Nat) (n bits : Nat) (hb : bits ≠ 0) :
    canPack src n bits = true ↔
      n ≤ src.length ∧ ∀ x ∈ src.take n, x ≤ 2 ^ bits - 1 := by
  unfold canPack
  split_ifs with h1 h2
  · simp only [Bool.false_eq_true, false_iff]
    intro hc
    omega
  · exact absurd (by simpa using h2) hb
  · rw [List.all_eq_true]
    constructor
    · intro h
      exact ⟨by omega, fun x hx => by simpa using h x hx⟩
    · intro h x hx
      simpa using h.2 x hx

theorem canPack_zero_iff (src : List Nat) (n : Nat) :
    canPack src n 0 = true ↔ n ≤ src.length ∧ ∀ x ∈ src, x = 1 := by
  unfold canPack
  simp only [beq_self_eq_true, if_true]
  split_ifs with h1
  · simp only [Bool.false_eq_true, false_iff]
    intro hc
    omega
  · rw [List.all_eq_true]
    constructor
    · intro h
      exact ⟨by omega, fun x hx => by simpa using h x hx⟩
    · intro h x hx
      simp [h.2 x hx]

theorem take_of_all_ones (src : List Nat) (n : Nat)
    (h1 : ∀ x ∈ src, x = 1) (h2 : n ≤ src.length) :
    src.take n = List.replicate n 1 := by
  rw [List.eq_replicate_iff]
  refine ⟨by simp [List.length_take]; omega, fun b hb => ?_⟩
  exact h1 b (List.take_subset n src hb)

/-- All five facts `encodeFirstWord_spec` needs about one selector branch
with positive field width. -/
theorem branchSpec (src : List Nat) (sel bits n : Nat)
    (hsel2 : 2 ≤ sel) (hsel15 : sel ≤ 15)
    (hn : selN sel = n) (hbits : selBits sel = bits) (hn1 : 1 ≤ n)
    (hb : bits ≠ 0) (hlen : bits * n ≤ 60)
    (hcp : canPack src n bits = true) :
    1 ≤ n ∧ n ≤ src.length ∧ packWord sel bits (src.take n) >>> 60 ≤ 15 ∧
      selN (packWord sel bits (src.take n) >>> 60) = n ∧
      (unpackWord (packWord sel bits (src.take n))).take n = src.take n := by
  have hch := (canPack_pos_iff src n bits hb).mp hcp
  have hlen' : (src.take n).length = n := by
    rw [List.length_take]
    omega
  have hv : ∀ x ∈ src.take n, x < 2 ^ bits := by
    intro x hx
    have hle := hch.2 x hx
    have hpos : 1 ≤ 2 ^ bits := Nat.one_le_two_pow
    omega
  have hlen2 : bits * (src.take n).length ≤ 60 := by rw [hlen']; exact hlen
  have hup := packWord_unpack sel bits (src.take n) hsel15 hlen2 hv
  have hselw := packWord_sel sel bits (src.take n) hsel15 hlen2 hv
  rw [hlen'] at hup
  refine ⟨hn1, hch.1, by omega, by rw [hselw, hn], ?_⟩
  rw [unpackWord, hselw, if_neg (by omega), hbits, hn, hup]
  exact List.take_of_length_le (le_of_eq hlen')

/-- Case analysis of a successful greedy step: exactly one selector branch
fired, with its `canPack` condition. -/
theorem encodeFirstWord_cases (src : List Nat) (w n : Nat)
    (h : encodeFirstWord src = some (w, n)) :
    (canPack src 240 0 = true ∧ w = 0 ∧ n = 240) ∨
      (canPack src 120 0 = true ∧ w = 1 <<< 60 ∧ n = 120) ∨
      (canPack src 60 1 = true ∧ w = pack60 src ∧ n = 60) ∨
      (canPack src 30 2 = true ∧ w = pack30 src ∧ n = 30) ∨
      (canPack src 20 3 = true ∧ w = pack20 src ∧ n = 20) ∨
      (canPack src 15 4 = true ∧ w = pack15 src ∧ n = 15) ∨
      (canPack src 12 5 = true ∧ w = pack12 src ∧ n = 12) ∨
      (canPack src 10 6 = true ∧ w = pack10 src ∧ n = 10) ∨
      (canPack src 8 7 = true ∧ w = pack8 src ∧ n = 8) ∨
      (canPack src 7 8 = true ∧ w = pack7 src ∧ n = 7) ∨
      (canPack src 6 10 = true ∧ w = pack6 src ∧ n = 6) ∨
      (canPack src 5 12 = true ∧ w = pack5 src ∧ n = 5) ∨
      (canPack src 4 15 = true ∧ w = pack4 src ∧ n = 4) ∨
      (canPack src 3 20 = true ∧ w = pack3 src ∧ n = 3) ∨
      (canPack src 2 30 = true ∧ w = pack2 src ∧ n = 2) ∨
      (canPack src 1 60 = true ∧ w = pack1 src ∧ n = 1) := by
  by_cases h0 : canPack src 240 0 = true
  · have he : encodeFirstWord src = some (0, 240) := by
      rw [encodeFirstWord, if_pos h0]
    rw [he] at h
    injection h with h'
    injection h' with ha hb
    exact Or.inl ⟨h0, ha.symm, hb.symm⟩
  ·
    by_cases h1 : canPack src 120 0 = true
    · have he : encodeFirstWord src = some (1 <<< 60, 120) := by
        rw [encodeFirstWord, if_neg h0, if_pos h1]
      rw [he] at h
      injection h with h'
      injection h' with ha hb
      exact Or.inr (Or.inl ⟨h1, ha.symm, hb.symm⟩)
    ·
      by_cases h2 : canPack src 60 1 = true
      · have he : encodeFirstWord src = some (pack60 src, 60) := by
          rw [encodeFirstWord, if_neg h0, if_neg h1, if_pos h2]
        rw [he] at h
        injection h with h'
        injection h' with ha hb
        exact Or.inr (Or.inr (Or.inl ⟨h2, ha.symm, hb.symm⟩))
      ·
        by_cases h3 : canPack src 30 2 = true
        · have he : encodeFirstWord src = some (pack30 src, 30) := by
            rw [encodeFirstWord, if_neg h0, if_neg h1, if_neg h2, if_pos h3]
          rw [he] at h
          injection h with h'
          injection h' with ha hb
          exact Or.inr (Or.inr (Or.inr (Or.inl ⟨h3, ha.symm, hb.symm⟩)))
        ·
          by_cases h4 : canPack src 20 3 = true
          · have he : encodeFirstWord src = some (pack20 src, 20) := by
              rw [encodeFirstWord, if_neg h0, if_neg h1, if_neg h2, if_neg h3, if_pos h4]
            rw [he] at h
            injection h with h'
            injection h' with ha hb
            exact Or.inr (Or.inr (Or.inr (Or.inr (Or.inl ⟨h4, ha.symm, hb.symm⟩))))
          ·
            by_cases h5 : canPack src 15 4 = true
            · have he : encodeFirstWord src = some (pack15 src, 15) := by
                rw [encodeFirstWord, if_neg h0, if_neg h1, if_neg h2, if_neg h3, if_neg h4, if_pos h5]
              rw [he] at h
              injection h with h'
              injection h' with ha hb
              exact Or.inr (Or.inr (Or.inr (Or.inr (Or.inr (Or.inl ⟨h5, ha.symm, hb.symm⟩)))))
            ·
              by_cases h6 : canPack src 12 5 = true
              · have he : encodeFirstWord src = some (pack12 src, 12) := by
                  rw [encodeFirstWord, if_neg h0, if_neg h1, if_neg h2, if_neg h3, if_neg h4, if_neg h5, if_pos h6]
                rw [he] at h
                injection h with h'
                injection h' with ha hb
                exact Or.inr (Or.inr (Or.inr (Or.inr (Or.inr (Or.inr (Or.inl ⟨h6, ha.symm, hb.symm⟩))))))
              ·
                by_cases h7 : canPack src 10 6 = true
                · have he : encodeFirstWord src = some (pack10 src, 10) := by
                    rw [encodeFirstWord, if_neg h0, if_neg h1, if_neg h2, if_neg h3, if_neg h4, if_neg h5, if_neg h6, if_pos h7]
                  rw [he] at h
                  injection h with h'
                  injection h' with ha hb
                  exact Or.inr (Or.inr (Or.inr (Or.inr (Or.inr (Or.inr (Or.inr (Or.inl ⟨h7, ha.symm, hb.symm⟩)))))))
                ·
                  by_cases h8 : canPack src 8 7 = true
                  · have he : encodeFirstWord src = some (pack8 src, 8) := by
                      rw [encodeFirstWord, if_neg h0, if_neg h1, if_neg h2, if_neg h3, if_neg h4, if_neg h5, if_neg h6, if_neg h7, if_pos h8]
                    rw [he] at h
                    injection h with h'
                    injection h' with ha hb
                    exact Or.inr (Or.inr (Or.inr (Or.inr (Or.inr (Or.inr (Or.inr (Or.inr (Or.inl ⟨h8, ha.symm, hb.symm⟩))))))))
                  ·
                    by_cases h9 : canPack src 7 8 = true
                    · have he : encodeFirstWord src = some (pack7 src, 7) := by
                        rw [encodeFirstWord, if_neg h0, if_neg h1, if_neg h2, if_neg h3, if_neg h4, if_neg h5, if_neg h6, if_neg h7, if_neg h8, if_pos h9]
                      rw [he] at h
                      injection h with h'
                      injection h' with ha hb
                      exact Or.inr (Or.inr (Or.inr (Or.inr (Or.inr (Or.inr (Or.inr (Or.inr (Or.inr (Or.inl ⟨h9, ha.symm, hb.symm⟩)))))))))
                    ·
                      by_cases h10 : canPack src 6 10 = true
                      · have he : encodeFirstWord src = some (pack6 src, 6) := by
                          rw [encodeFirstWord, if_neg h0, if_neg h1, if_neg h2, if_neg h3, if_neg h4, if_neg h5, if_neg h6, if_neg h7, if_neg h8, if_neg h9, if_pos h10]
                        rw [he] at h
                        injection h with h'
                        injection h' with ha hb
                        exact Or.inr (Or.inr (Or.inr (Or.inr (Or.inr (Or.inr (Or.inr (Or.inr (Or.inr (Or.inr (Or.inl ⟨h10, ha.symm, hb.symm⟩))))))))))
                      ·
                        by_cases h11 : canPack src 5 12 = true
                        · have he : encodeFirstWord src = some (pack5 src, 5) := by
                            rw [encodeFirstWord, if_neg h0, if_neg h1, if_neg h2, if_neg h3, if_neg h4, if_neg h5, if_neg h6, if_neg h7, if_neg h8, if_neg h9, if_neg h10, if_pos h11]
                          rw [he] at h
                          injection h with h'
                          injection h' with ha hb
                          exact Or.inr (Or.inr (Or.inr (Or.inr (Or.inr (Or.inr (Or.inr (Or.inr (Or.inr (Or.inr (Or.inr (Or.inl ⟨h11, ha.symm, hb.symm⟩)))))))))))
                        ·
                          by_cases h12 : canPack src 4 15 = true
                          · have he : encodeFirstWord src = some (pack4 src, 4) := by
                              rw [encodeFirstWord, if_neg h0, if_neg h1, if_neg h2, if_neg h3, if_neg h4, if_neg h5, if_neg h6, if_neg h7, if_neg h8, if_neg h9, if_neg h10, if_neg h11, if_pos h12]
                            rw [he] at h
                            injection h with h'
                            injection h' with ha hb
                            exact Or.inr (Or.inr (Or.inr (Or.inr (Or.inr (Or.inr (Or.inr (Or.inr (Or.inr (Or.inr (Or.inr (Or.inr (Or.inl ⟨h12, ha.symm, hb.symm⟩))))))))))))
                          ·
                            by_cases h13 : canPack src 3 20 = true
                            · have he : encodeFirstWord src = some (pack3 src, 3) := by
                                rw [encodeFirstWord, if_neg h0, if_neg h1, if_neg h2, if_neg h3, if_neg h4, if_neg h5, if_neg h6, if_neg h7, if_neg h8, if_neg h9, if_neg h10, if_neg h11, if_neg h12, if_pos h13]
                              rw [he] at h
                              injection h with h'
                              injection h' with ha hb
                              exact Or.inr (Or.inr (Or.inr (Or.inr (Or.inr (Or.inr (Or.inr (Or.inr (Or.inr (Or.inr (Or.inr (Or.inr (Or.inr (Or.inl ⟨h13, ha.symm, hb.symm⟩)))))))))))))
                            ·
                              by_cases h14 : canPack src 2 30 = true
                              · have he : encodeFirstWord src = some (pack2 src, 2) := by
                                  rw [encodeFirstWord, if_neg h0, if_neg h1, if_neg h2, if_neg h3, if_neg h4, if_neg h5, if_neg h6, if_neg h7, if_neg h8, if_neg h9, if_neg h10, if_neg h11, if_neg h12, if_neg h13, if_pos h14]
                                rw [he] at h
                                injection h with h'
                                injection h' with ha hb
                                exact Or.inr (Or.inr (Or.inr (Or.inr (Or.inr (Or.inr (Or.inr (Or.inr (Or.inr (Or.inr (Or.inr (Or.inr (Or.inr (Or.inr (Or.inl ⟨h14, ha.symm, hb.symm⟩))))))))))))))
                              ·
                                by_cases h15 : canPack src 1 60 = true
                                · have he : encodeFirstWord src = some (pack1 src, 1) := by
                                    rw [encodeFirstWord, if_neg h0, if_neg h1, if_neg h2, if_neg h3, if_neg h4, if_neg h5, if_neg h6, if_neg h7, if_neg h8, if_neg h9, if_neg h10, if_neg h11, if_neg h12, if_neg h13, if_neg h14, if_pos h15]
                                  rw [he] at h
                                  injection h with h'
                                  injection h' with ha hb
                                  exact Or.inr (Or.inr (Or.inr (Or.inr (Or.inr (Or.inr (Or.inr (Or.inr (Or.inr (Or.inr (Or.inr (Or.inr (Or.inr (Or.inr (Or.inr (⟨h15, ha.symm, hb.symm⟩)))))))))))))))
                                · have he : encodeFirstWord src = none := by
                                    rw [encodeFirstWord, if_neg h0, if_neg h1, if_neg h2, if_neg h3, if_neg h4, if_neg h5, if_neg h6, if_neg h7, if_neg h8, if_neg h9, if_neg h10, if_neg h11, if_neg h12, if_neg h13, if_neg h14, if_neg h15]
                                  rw [he] at h
                                  exact absurd h (by simp)

/-- The cascade cannot return `none` when its final branch accepts. -/
theorem encodeFirstWord_ne_none (src : List Nat)
    (hcp : canPack src 1 60 = true) : encodeFirstWord src ≠ none := by
  intro he
  by_cases h0 : canPack src 240 0 = true
  · rw [encodeFirstWord, if_pos h0] at he
    exact absurd he (by simp)
  ·
    by_cases h1 : canPack src 120 0 = true
    · rw [encodeFirstWord, if_neg h0, if_pos h1] at he
      exact absurd he (by simp)
    ·
      by_cases h2 : canPack src 60 1 = true
      · rw [encodeFirstWord, if_neg h0, if_neg h1, if_pos h2] at he
        exact absurd he (by simp)
      ·
        by_cases h3 : canPack src 30 2 = true
        · rw [encodeFirstWord, if_neg h0, if_neg h1, if_neg h2, if_pos h3] at he
          exact absurd he (by simp)
        ·
          by_cases h4 : canPack src 20 3 = true
          · rw [encodeFirstWord, if_neg h0, if_neg h1, if_neg h2, if_neg h3, if_pos h4] at he
            exact absurd he (by simp)
          ·
            by_cases h5 : canPack src 15 4 = true
            · rw [encodeFirstWord, if_neg h0, if_neg h1, if_neg h2, if_neg h3, if_neg h4, if_pos h5] at he
              exact absurd he (by simp)
            ·
              by_cases h6 : canPack src 12 5 = true
              · rw [encodeFirstWord, if_neg h0, if_neg h1, if_neg h2, if_neg h3, if_neg h4, if_neg h5, if_pos h6] at he
                exact absurd he (by simp)
              ·
                by_cases h7 : canPack src 10 6 = true
                · rw [encodeFirstWord, if_neg h0, if_neg h1, if_neg h2, if_neg h3, if_neg h4, if_neg h5, if_neg h6, if_pos h7] at he
                  exact absurd he (by simp)
                ·
                  by_cases h8 : canPack src 8 7 = true
                  · rw [encodeFirstWord, if_neg h0, if_neg h1, if_neg h2, if_neg h3, if_neg h4, if_neg h5, if_neg h6, if_neg h7, if_pos h8] at he
                    exact absurd he (by simp)
                  ·
                    by_cases h9 : canPack src 7 8 = true
                    · rw [encodeFirstWord, if_neg h0, if_neg h1, if_neg h2, if_neg h3, if_neg h4, if_neg h5, if_neg h6, if_neg h7, if_neg h8, if_pos h9] at he
                      exact absurd he (by simp)
                    ·
                      by_cases h10 : canPack src 6 10 = true
                      · rw [encodeFirstWord, if_neg h0, if_neg h1, if_neg h2, if_neg h3, if_neg h4, if_neg h5, if_neg h6, if_neg h7, if_neg h8, if_neg h9, if_pos h10] at he
                        exact absurd he (by simp)
                      ·
                        by_cases h11 : canPack src 5 12 = true
                        · rw [encodeFirstWord, if_neg h0, if_neg h1, if_neg h2, if_neg h3, if_neg h4, if_neg h5, if_neg h6, if_neg h7, if_neg h8, if_neg h9, if_neg h10, if_pos h11] at he
                          exact absurd he (by simp)
                        ·
                          by_cases h12 : canPack src 4 15 = true
                          · rw [encodeFirstWord, if_neg h0, if_neg h1, if_neg h2, if_neg h3, if_neg h4, if_neg h5, if_neg h6, if_neg h7, if_neg h8, if_neg h9, if_neg h10, if_neg h11, if_pos h12] at he
                            exact absurd he (by simp)
                          ·
                            by_cases h13 : canPack src 3 20 = true
                            · rw [encodeFirstWord, if_neg h0, if_neg h1, if_neg h2, if_neg h3, if_neg h4, if_neg h5, if_neg h6, if_neg h7, if_neg h8, if_neg h9, if_neg h10, if_neg h11, if_neg h12, if_pos h13] at he
                              exact absurd he (by simp)
                            ·
                              by_cases h14 : canPack src 2 30 = true
                              · rw [encodeFirstWord, if_neg h0, if_neg h1, if_neg h2, if_neg h3, if_neg h4, if_neg h5, if_neg h6, if_neg h7, if_neg h8, if_neg h9, if_neg h10, if_neg h11, if_neg h12, if_neg h13, if_pos h14] at he
                                exact absurd he (by simp)
                              ·
                                by_cases h15 : canPack src 1 60 = true
                                · rw [encodeFirstWord, if_neg h0, if_neg h1, if_neg h2, if_neg h3, if_neg h4, if_neg h5, if_neg h6, if_neg h7, if_neg h8, if_neg h9, if_neg h10, if_neg h11, if_neg h12, if_neg h13, if_neg h14, if_pos h15] at he
                                  exact absurd he (by simp)
                                · exact absurd hcp h15

/-- Everything the round-trip argument needs about one successful greedy
step: it consumes between 1 and `src.length` values, the produced word's
selector is valid and reports exactly the consumed count, and unpacking the
word reproduces the consumed prefix. -/
theorem encodeFirstWord_spec (src : List Nat) (w n : Nat)
    (h : encodeFirstWord src = some (w, n)) :
    1 ≤ n ∧ n ≤ src.length ∧ w >>> 60 ≤ 15 ∧ selN (w >>> 60) = n ∧
      (unpackWord w).take n = src.take n := by
  rcases encodeFirstWord_cases src w n h with
    ⟨hc, rfl, rfl⟩ | ⟨hc, rfl, rfl⟩ | ⟨hc, rfl, rfl⟩ | ⟨hc, rfl, rfl⟩ | ⟨hc, rfl, rfl⟩ | ⟨hc, rfl, rfl⟩ | ⟨hc, rfl, rfl⟩ | ⟨hc, rfl, rfl⟩ | ⟨hc, rfl, rfl⟩ | ⟨hc, rfl, rfl⟩ | ⟨hc, rfl, rfl⟩ | ⟨hc, rfl, rfl⟩ | ⟨hc, rfl, rfl⟩ | ⟨hc, rfl, rfl⟩ | ⟨hc, rfl, rfl⟩ | ⟨hc, rfl, rfl⟩
  · have hch := (canPack_zero_iff src 240).mp hc
    have hz : (0 : Nat) >>> 60 = 0 := Nat.zero_shiftRight 60
    refine ⟨by norm_num, hch.1, by rw [hz]; norm_num, by rw [hz]; rfl, ?_⟩
    rw [unpackWord, hz, if_pos (by norm_num : (0 : Nat) ≤ 1),
      take_of_all_ones src 240 hch.2 hch.1, List.take_replicate]
    norm_num
  · have hch := (canPack_zero_iff src 120).mp hc
    have h60 : (1 <<< 60 : Nat) >>> 60 = 1 := by
      rw [Nat.shiftLeft_eq, Nat.shiftRight_eq_div_pow]
    refine ⟨by norm_num, hch.1, by rw [h60]; norm_num, by rw [h60]; rfl, ?_⟩
    rw [unpackWord, h60, if_pos (by norm_num : (1 : Nat) ≤ 1),
      take_of_all_ones src 120 hch.2 hch.1, List.take_replicate]
    norm_num
  · exact branchSpec src 2 1 60 (by norm_num) (by norm_num) rfl rfl
      (by norm_num) (by norm_num) (by norm_num) hc
  · exact branchSpec src 3 2 30 (by norm_num) (by norm_num) rfl rfl
      (by norm_num) (by norm_num) (by norm_num) hc
  · exact branchSpec src 4 3 20 (by norm_num) (by norm_num) rfl rfl
      (by norm_num) (by norm_num) (by norm_num) hc
  · exact branchSpec src 5 4 15 (by norm_num) (by norm_num) rfl rfl
      (by norm_num) (by norm_num) (by norm_num) hc
  · exact branchSpec src 6 5 12 (by norm_num) (by norm_num) rfl rfl
      (by norm_num) (by norm_num) (by norm_num) hc
  · exact branchSpec src 7 6 10 (by norm_num) (by norm_num) rfl rfl
      (by norm_num) (by norm_num) (by norm_num) hc
  · exact branchSpec src 8 7 8 (by norm_num) (by norm_num) rfl rfl
      (by norm_num) (by norm_num) (by norm_num) hc
  · exact branchSpec src 9 8 7 (by norm_num) (by norm_num) rfl rfl
      (by norm_num) (by norm_num) (by norm_num) hc
  · exact branchSpec src 10 10 6 (by norm_num) (by norm_num) rfl rfl
      (by norm_num) (by norm_num) (by norm_num) hc
  · exact branchSpec src 11 12 5 (by norm_num) (by norm_num) rfl rfl
      (by norm_num) (by norm_num) (by norm_num) hc
  · exact branchSpec src 12 15 4 (by norm_num) (by norm_num) rfl rfl
      (by norm_num) (by norm_num) (by norm_num) hc
  · exact branchSpec src 13 20 3 (by norm_num) (by norm_num) rfl rfl
      (by norm_num) (by norm_num) (by norm_num) hc
  · exact branchSpec src 14 30 2 (by norm_num) (by norm_num) rfl rfl
      (by norm_num) (by norm_num) (by norm_num) hc
  · exact branchSpec src 15 60 1 (by norm_num) (by norm_num) rfl rfl
      (by norm_num) (by norm_num) (by norm_num) hc

/-- On a non-empty input whose values all fit in 60 bits, the greedy cascade
always finds a selector (at worst selector 15). -/
theorem encodeFirstWord_isSome (src : List Nat) (hne : src ≠ [])
    (hv : ∀ x ∈ src, x ≤ MaxValue) :
    ∃ w n, encodeFirstWord src = some (w, n) := by
  have hcp : canPack src 1 60 = true := by
    rw [canPack_pos_iff _ _ _ (by norm_num)]
    refine ⟨?_, fun x hx => ?_⟩
    · match src, hne with
      | [], hne => exact absurd rfl hne
      | x :: xs, _ => simp
    · exact hv x (List.take_subset 1 src hx)
  cases he : encodeFirstWord src with
  | none => exact absurd he (encodeFirstWord_ne_none src hcp)
  | some r =>
    refine ⟨r.1, r.2, ?_⟩
    rw [Prod.mk.eta]


/-- `Encode` agrees with the cascade whenever the cascade succeeds. -/
theorem Encode_eq_firstWord (src : List Nat) (r : Nat × Nat)
    (h : encodeFirstWord src = some r) : Encode src = some r := by
  rw [Encode, h]

/-- The value sequence `DecodeAll` is meant to materialize: each word
contributes the first `n` slots its unpack function writes. -/
def decodeVals (ws : List Nat) : List Nat :=
  ws.flatMap fun w => (unpackWord w).take (selN (w >>> 60))

theorem unpack_len (w : Nat) (_h : w >>> 60 ≤ 15) :
    selN (w >>> 60) ≤ (unpackWord w).length := by
  by_cases h2 : w >>> 60 ≤ 1
  · rw [unpackWord, if_pos h2]
    have h01 : w >>> 60 = 0 ∨ w >>> 60 = 1 := by omega
    rcases h01 with h0 | h0 <;> rw [h0] <;> norm_num [selN]
  · rw [unpackWord, if_neg h2, unpackFields]
    simp

/-- Greedy bulk encoding succeeds on in-range values and its words decode
back (word by word, first-`n` slots) to exactly the input. -/
theorem encodeAllLoop_spec :
    ∀ (fuel : Nat) (src : List Nat), src.length ≤ fuel →
      (∀ x ∈ src, x ≤ MaxValue) →
      ∃ ws, encodeAllLoop fuel src = some ws ∧ decodeVals ws = src ∧
        ∀ w ∈ ws, w >>> 60 ≤ 15 := by
  intro fuel
  induction fuel with
  | zero =>
    intro src hlen _
    match src, hlen with
    | [], _ => exact ⟨[], rfl, rfl, by simp⟩
  | succ fuel ih =>
    intro src hlen hv
    match src with
    | [] => exact ⟨[], rfl, rfl, by simp⟩
    | x :: xs =>
      obtain ⟨w, n, hw⟩ :=
        encodeFirstWord_isSome (x :: xs) (List.cons_ne_nil x xs) hv
      obtain ⟨hn1, hnle, hsel, hseln, htake⟩ := encodeFirstWord_spec _ _ _ hw
      have hdroplen : ((x :: xs).drop n).length ≤ fuel := by
        rw [List.length_drop]
        have := hlen
        simp only [List.length_cons] at this ⊢
        omega
      have hdv : ∀ y ∈ (x :: xs).drop n, y ≤ MaxValue := fun y hy =>
        hv y (List.drop_subset n (x :: xs) hy)
      obtain ⟨ws, hws, hdec, hsels⟩ := ih ((x :: xs).drop n) hdroplen hdv
      refine ⟨w :: ws, ?_, ?_, ?_⟩
      · rw [encodeAllLoop, hw]
        show (encodeAllLoop fuel ((x :: xs).drop n)).map (fun ws => w :: ws) = some (w :: ws)
        rw [hws]
        rfl
      · show (unpackWord w).take (selN (w >>> 60)) ++ decodeVals ws = x :: xs
        rw [hseln, htake, hdec, List.take_append_drop]
      · intro y hy
        rcases List.mem_cons.mp hy with rfl | hmem
        · exact hsel
        · exact hsels y hmem

/-- Go `EncodeAll` on in-range values: succeeds, and the produced words carry
valid selectors and decode back to the input. -/
theorem EncodeAll_spec (src : List Nat) (hv : ∀ x ∈ src, x ≤ MaxValue) :
    ∃ ws, EncodeAll src = some ws ∧ decodeVals ws = src ∧
      ∀ w ∈ ws, w >>> 60 ≤ 15 :=
  encodeAllLoop_spec src.length src le_rfl hv

theorem writeAt_length (dst vs : List Nat) (j : Nat) (hj : j ≤ dst.length) :
    (writeAt dst j vs).length = max dst.length (j + vs.length) := by
  rw [writeAt]
  simp only [List.length_append, List.length_take, List.length_drop]
  omega

theorem writeAt_take (dst vs : List Nat) (j k : Nat) (hj : j ≤ dst.length)
    (hk : k ≤ vs.length) :
    (writeAt dst j vs).take (j + k) = dst.take j ++ vs.take k := by
  have hlen : (dst.take j).length = j := by
    rw [List.length_take]
    omega
  have h1 := @List.take_append _ (dst.take j) (vs ++ dst.drop (j + vs.length)) k
  rw [hlen] at h1
  rw [writeAt, List.append_assoc, h1, List.take_append_of_le_length hk]

/-- Running the `DecodeAll` loop from offset `j`: the loop succeeds on valid
selectors and the first `j + |decodeVals ws|` slots of the final buffer are
the untouched prefix followed by the decoded values (later words overwrite
any slots a selector-0/1 word wrote beyond its reported count). -/
theorem decodeAllLoop_spec :
    ∀ (ws : List Nat) (dst : List Nat) (j : Nat), j ≤ dst.length →
      (∀ w ∈ ws, w >>> 60 ≤ 15) →
      ∃ buf, decodeAllLoop dst j ws = some (buf, j + (decodeVals ws).length) ∧
        buf.take (j + (decodeVals ws).length) = dst.take j ++ decodeVals ws := by
  intro ws
  induction ws with
  | nil =>
    intro dst j hj _
    exact ⟨dst, by simp [decodeAllLoop, decodeVals], by simp [decodeVals]⟩
  | cons w ws ih =>
    intro dst j hj hsel
    have hw : w >>> 60 ≤ 15 := hsel w (by simp)
    have hulen := unpack_len w hw
    have htklen : ((unpackWord w).take (selN (w >>> 60))).length = selN (w >>> 60) := by
      rw [List.length_take]
      omega
    have hj1 : j + selN (w >>> 60) ≤ (writeAt dst j (unpackWord w)).length := by
      rw [writeAt_length dst _ j hj]
      omega
    obtain ⟨buf, hloop, htake⟩ :=
      ih (writeAt dst j (unpackWord w)) (j + selN (w >>> 60)) hj1
        (fun y hy => hsel y (by simp [hy]))
    have hdvlen : (decodeVals (w :: ws)).length =
        selN (w >>> 60) + (decodeVals ws).length := by
      show (((unpackWord w).take (selN (w >>> 60))) ++ decodeVals ws).length = _
      rw [List.length_append, htklen]
    refine ⟨buf, ?_, ?_⟩
    · rw [decodeAllLoop, if_neg (by omega)]
      rw [hloop, hdvlen, Nat.add_assoc]
    · have harr : j + (decodeVals (w :: ws)).length =
          j + selN (w >>> 60) + (decodeVals ws).length := by
        rw [hdvlen]
        omega
      rw [harr, htake]
      rw [writeAt_take dst (unpackWord w) j (selN (w >>> 60)) hj hulen]
      show (dst.take j ++ (unpackWord w).take (selN (w >>> 60))) ++ decodeVals ws =
        dst.take j ++ ((unpackWord w).take (selN (w >>> 60)) ++ decodeVals ws)
      rw [List.append_assoc]

end Simple8b

/-! ### Claim theorems: C1, C10 -/

/-- C1: for every list `xs` of unsigned 64-bit integers in which every
element is at most `(1<<60) - 1`, bulk-packing with `EncodeAll` and decoding
the resulting words with `DecodeAll` yields exactly `xs`: the same number of
values, the same values, in the same order. -/
theorem C1_encodeAll_decodeAll_roundtrip (xs : List Nat)
    (hv : ∀ x ∈ xs, x ≤ Simple8b.MaxValue) :
    ∃ ws buf, Simple8b.EncodeAll xs = some ws ∧
      Simple8b.DecodeAll (List.replicate (xs.length + 240) 0) ws =
        some (buf, xs.length) ∧
      buf.take xs.length = xs := by
  obtain ⟨ws, hws, hdec, hsels⟩ := Simple8b.EncodeAll_spec xs hv
  obtain ⟨buf, hloop, htake⟩ :=
    Simple8b.decodeAllLoop_spec ws (List.replicate (xs.length + 240) 0) 0
      (by simp) hsels
  rw [hdec] at hloop htake
  refine ⟨ws, buf, hws, ?_, ?_⟩
  · rw [Simple8b.DecodeAll, hloop]
    norm_num
  · simpa using htake

/-- Witness for C1 at the concrete input `0,1,…,29` (spec scenario 3). -/
theorem C1_witness :
    (∀ x ∈ List.range 30, x ≤ Simple8b.MaxValue) ∧
    ∃ ws buf, Simple8b.EncodeAll (List.range 30) = some ws ∧
      Simple8b.DecodeAll (List.replicate ((List.range 30).length + 240) 0) ws =
        some (buf, (List.range 30).length) ∧
      buf.take (List.range 30).length = List.range 30 :=
  ⟨by decide, C1_encodeAll_decodeAll_roundtrip (List.range 30) (by decide)⟩

/-- C10: for every word whose selector (top four bits) is 0 or 1, the
single-word unpack writes the value 1 into all 240 slots of the destination
buffer — not only the first 240 or 120 — while the reported count is the
selector's table entry (240 for selector 0, 120 for selector 1); in
particular a selector-1 word overwrites destination slots 120 through 239. -/
theorem C10_unpack_writes_all_240 (v : Nat) (dst : List Nat)
    (hlen : dst.length = 240) (hsel : v >>> 60 ≤ 1) :
    Simple8b.Decode dst v =
      some (List.replicate 240 1, Simple8b.selN (v >>> 60)) ∧
    (v >>> 60 = 0 → Simple8b.selN (v >>> 60) = 240) ∧
    (v >>> 60 = 1 → Simple8b.selN (v >>> 60) = 120) := by
  refine ⟨?_, fun h0 => by rw [h0]; rfl, fun h1 => by rw [h1]; rfl⟩
  rw [Simple8b.Decode, if_neg (by omega), Simple8b.unpackWord, if_pos hsel,
    Simple8b.writeAt]
  have hdrop : dst.drop (0 + (List.replicate 240 (1 : Nat)).length) = [] := by
    apply List.drop_eq_nil_of_le
    rw [List.length_replicate, hlen]
  rw [hdrop]
  simp only [List.take_zero, List.nil_append, List.append_nil]

set_option maxRecDepth 4000 in
/-- Witness for C10: a selector-1 word decoded into a buffer previously
holding 240 sevens turns every slot into 1 and reports 120 values. -/
theorem C10_witness :
    (List.replicate 240 7).length = 240 ∧ (2 ^ 60 : Nat) >>> 60 ≤ 1 ∧
    (Simple8b.Decode (List.replicate 240 7) (2 ^ 60) =
        some (List.replicate 240 1, Simple8b.selN ((2 ^ 60 : Nat) >>> 60)) ∧
      ((2 ^ 60 : Nat) >>> 60 = 0 → Simple8b.selN ((2 ^ 60 : Nat) >>> 60) = 240) ∧
      ((2 ^ 60 : Nat) >>> 60 = 1 → Simple8b.selN ((2 ^ 60 : Nat) >>> 60) = 120)) :=
  ⟨by decide, by decide,
    C10_unpack_writes_all_240 (2 ^ 60) (List.replicate 240 7) (by decide) (by decide)⟩

/-! ### Lemmas: out-of-range head value -/

namespace Simple8b

/-- No selector accepts a source whose first value exceeds `MaxValue`. -/
theorem encodeFirstWord_head_oob (v : Nat) (vs : List Nat)
    (hv : MaxValue < v) : encodeFirstWord (v :: vs) = none := by
  have hMax : MaxValue = 2 ^ 60 - 1 := rfl
  have hz : ∀ n : Nat, canPack (v :: vs) n 0 ≠ true := by
    intro n hc
    have h1 := ((canPack_zero_iff (v :: vs) n).mp hc).2 v (by simp)
    have h2 : (1 : Nat) ≤ 2 ^ 60 - 1 := by norm_num
    omega
  have hp : ∀ n bits : Nat, 1 ≤ n → 1 ≤ bits → bits ≤ 60 →
      canPack (v :: vs) n bits ≠ true := by
    intro n bits hn hb1 hb60 hc
    have hch := (canPack_pos_iff (v :: vs) n bits (by omega)).mp hc
    have hvin : v ∈ (v :: vs).take n := by
      match n, hn with
      | m + 1, _ => simp [List.take_succ_cons]
    have hle := hch.2 v hvin
    have h2 : (2 : Nat) ^ bits ≤ 2 ^ 60 := Nat.pow_le_pow_right (by norm_num) hb60
    omega
  rw [encodeFirstWord,
    if_neg (hz 240), if_neg (hz 120),
    if_neg (hp 60 1 (by norm_num) (by norm_num) (by norm_num)),
    if_neg (hp 30 2 (by norm_num) (by norm_num) (by norm_num)),
    if_neg (hp 20 3 (by norm_num) (by norm_num) (by norm_num)),
    if_neg (hp 15 4 (by norm_num) (by norm_num) (by norm_num)),
    if_neg (hp 12 5 (by norm_num) (by norm_num) (by norm_num)),
    if_neg (hp 10 6 (by norm_num) (by norm_num) (by norm_num)),
    if_neg (hp 8 7 (by norm_num) (by norm_num) (by norm_num)),
    if_neg (hp 7 8 (by norm_num) (by norm_num) (by norm_num)),
    if_neg (hp 6 10 (by norm_num) (by norm_num) (by norm_num)),
    if_neg (hp 5 12 (by norm_num) (by norm_num) (by norm_num)),
    if_neg (hp 4 15 (by norm_num) (by norm_num) (by norm_num)),
    if_neg (hp 3 20 (by norm_num) (by norm_num) (by norm_num)),
    if_neg (hp 2 30 (by norm_num) (by norm_num) (by norm_num)),
    if_neg (hp 1 60 (by norm_num) (by norm_num) (by norm_num))]

end Simple8b

/-! ### Lemmas: streaming encoder in the no-flush regime, and error cases -/

namespace Simple8b

theorem write_no_flush (e : Enc) (v : Nat)
    (hc : ¬(e.h + e.pending.length ≥ 240)) :
    write e v = some ⟨e.pending ++ [v], e.h, e.words⟩ := by
  rw [write, if_neg hc]
  simp only [Option.some_bind, if_neg hc]

theorem writeList_no_flush :
    ∀ (xs : List Nat) (e : Enc), e.h = 0 →
      e.pending.length + xs.length ≤ 240 →
      writeList e xs = some ⟨e.pending ++ xs, 0, e.words⟩ := by
  intro xs
  induction xs with
  | nil =>
    intro e h0 _
    obtain ⟨p, hh, w⟩ := e
    simp only at h0
    subst h0
    simp [writeList]
  | cons x xs ih =>
    intro e h0 hlen
    have hcond : ¬(e.h + e.pending.length ≥ 240) := by
      rw [h0]
      simp only [List.length_cons] at hlen
      omega
    rw [writeList, write_no_flush e x hcond, Option.some_bind]
    have := ih ⟨e.pending ++ [x], e.h, e.words⟩ h0
      (by simp only [List.length_append, List.length_cons, List.length_nil] at hlen ⊢; omega)
    rw [this]
    simp

/-- `flush` fails exactly when packing the pending values fails. -/
theorem flush_err (e : Enc) (hne : e.pending ≠ [])
    (hEnc : Encode e.pending = none) : flush e = none := by
  have hlen : 1 ≤ e.pending.length := by
    cases hp : e.pending with
    | nil => exact absurd hp hne
    | cons a l => simp [hp]
  rw [flush, if_neg (by simp only [beq_iff_eq]; omega), hEnc]

/-- `Bytes` on a state whose pending head is out of range returns the packing
error. -/
theorem Bytes_err_head (e : Enc) (v : Nat) (rest : List Nat)
    (hp : e.pending = v :: rest) (hv : MaxValue < v) : Bytes e = none := by
  have hEnc : Encode e.pending = none := by
    rw [hp]
    have hfw : encodeFirstWord (v :: rest) = none := encodeFirstWord_head_oob v rest hv
    rw [Encode, hfw, if_pos (by simp)]
  rw [Bytes, hp]
  show (drainLoop (rest.length + 1) e).map _ = none
  rw [drainLoop,
    if_neg (by rw [hp]; simp only [beq_iff_eq, List.length_cons]; omega),
    flush_err e (by rw [hp]; simp) hEnc]
  rfl

end Simple8b

namespace Simple8b

/-- The length precheck alone refutes `canPack`. -/
theorem canPack_short (src : List Nat) (n bits : Nat) (h : src.length < n) :
    canPack src n bits = false := by
  rw [canPack, if_pos h]

/-- Inversion for `Encode`: a successful result is either a cascade result or
the empty-input `(0, 0)`. -/
theorem Encode_some_inv (src : List Nat) (r : Nat × Nat)
    (h : Encode src = some r) :
    encodeFirstWord src = some r ∨ (r = (0, 0) ∧ src = []) := by
  cases hfw : encodeFirstWord src with
  | some r2 =>
    have he : Encode src = some r2 := Encode_eq_firstWord src r2 hfw
    rw [he] at h
    injection h with h2
    subst h2
    exact Or.inl rfl
  | none =>
    simp only [Encode, hfw] at h
    by_cases hl : src.length > 0
    · rw [if_pos hl] at h
      cases h
    · rw [if_neg hl] at h
      injection h with h2
      refine Or.inr ⟨h2.symm, ?_⟩
      cases src with
      | nil => rfl
      | cons a l => simp at hl

end Simple8b

/-- C3: the single-word `Encode` returns `(0, 240)` (selector 0) iff `src`
has at least 240 elements and every element of the ENTIRE `src` equals 1,
and returns `(1<<60, 120)` (selector 1) iff every element of the entire
`src` equals 1 and `120 <= len(src) < 240`; the all-ones test spans the
whole remaining input, not only the first 240 or 120 values. -/
theorem C3_selector01_iff (src : List Nat) :
    (Simple8b.Encode src = some (0, 240) ↔
      240 ≤ src.length ∧ ∀ x ∈ src, x = 1) ∧
    (Simple8b.Encode src = some (1 <<< 60, 120) ↔
      (∀ x ∈ src, x = 1) ∧ 120 ≤ src.length ∧ src.length < 240) := by
  constructor
  · constructor
    · intro h
      rcases Simple8b.Encode_some_inv src (0, 240) h with hstep | ⟨hr, _⟩
      · rcases Simple8b.encodeFirstWord_cases src 0 240 hstep with
          ⟨hc, hw, hn⟩ |
      ⟨hc, hw, hn⟩ |
      ⟨hc, hw, hn⟩ |
      ⟨hc, hw, hn⟩ |
      ⟨hc, hw, hn⟩ |
      ⟨hc, hw, hn⟩ |
      ⟨hc, hw, hn⟩ |
      ⟨hc, hw, hn⟩ |
      ⟨hc, hw, hn⟩ |
      ⟨hc, hw, hn⟩ |
      ⟨hc, hw, hn⟩ |
      ⟨hc, hw, hn⟩ |
      ⟨hc, hw, hn⟩ |
      ⟨hc, hw, hn⟩ |
      ⟨hc, hw, hn⟩ |
      ⟨hc, hw, hn⟩
        · exact (Simple8b.canPack_zero_iff src 240).mp hc
        all_goals omega
      · injection hr with hr1 hr2
        omega
    · intro hch
      have hcp : Simple8b.canPack src 240 0 = true :=
        (Simple8b.canPack_zero_iff src 240).mpr hch
      exact Simple8b.Encode_eq_firstWord src (0, 240)
        (by rw [Simple8b.encodeFirstWord, if_pos hcp])
  · constructor
    · intro h
      rcases Simple8b.Encode_some_inv src (1 <<< 60, 120) h with hstep | ⟨hr, _⟩
      · have hones : (∀ x ∈ src, x = 1) ∧ 120 ≤ src.length := by
          rcases Simple8b.encodeFirstWord_cases src (1 <<< 60) 120 hstep with
            ⟨hc, hw, hn⟩ |
      ⟨hc, hw, hn⟩ |
      ⟨hc, hw, hn⟩ |
      ⟨hc, hw, hn⟩ |
      ⟨hc, hw, hn⟩ |
      ⟨hc, hw, hn⟩ |
      ⟨hc, hw, hn⟩ |
      ⟨hc, hw, hn⟩ |
      ⟨hc, hw, hn⟩ |
      ⟨hc, hw, hn⟩ |
      ⟨hc, hw, hn⟩ |
      ⟨hc, hw, hn⟩ |
      ⟨hc, hw, hn⟩ |
      ⟨hc, hw, hn⟩ |
      ⟨hc, hw, hn⟩ |
      ⟨hc, hw, hn⟩
          · omega
          · have hch := (Simple8b.canPack_zero_iff src 120).mp hc
            exact ⟨hch.2, hch.1⟩
          all_goals omega
        refine ⟨hones.1, hones.2, ?_⟩
        by_contra hge
        have hcp240 : Simple8b.canPack src 240 0 = true :=
          (Simple8b.canPack_zero_iff src 240).mpr ⟨by omega, hones.1⟩
        have hstep2 : Simple8b.encodeFirstWord src = some (0, 240) := by
          rw [Simple8b.encodeFirstWord, if_pos hcp240]
        rw [hstep] at hstep2
        injection hstep2 with h2
        injection h2 with ha hb
        omega
      · injection hr with hr1 hr2
        omega
    · intro hch
      have hshort : Simple8b.canPack src 240 0 = false :=
        Simple8b.canPack_short src 240 0 (by omega)
      have hcp : Simple8b.canPack src 120 0 = true :=
        (Simple8b.canPack_zero_iff src 120).mpr ⟨hch.2.1, hch.1⟩
      exact Simple8b.Encode_eq_firstWord src (1 <<< 60, 120)
        (by rw [Simple8b.encodeFirstWord, if_neg (by rw [hshort]; simp), if_pos hcp])

/-- Witness for C3 at the concrete inputs of `Test_Encode_240Ones` and the
120-ones variant: 250 ones trigger selector 0; 130 ones trigger selector 1. -/
theorem C3_witness :
    (Simple8b.Encode (List.replicate 250 1) = some (0, 240) ↔
      240 ≤ (List.replicate 250 (1 : Nat)).length ∧
        ∀ x ∈ List.replicate 250 (1 : Nat), x = 1) ∧
    (Simple8b.Encode (List.replicate 250 1) = some (1 <<< 60, 120) ↔
      (∀ x ∈ List.replicate 250 (1 : Nat), x = 1) ∧
        120 ≤ (List.replicate 250 (1 : Nat)).length ∧
        (List.replicate 250 (1 : Nat)).length < 240) :=
  C3_selector01_iff (List.replicate 250 1)

/-- C8: encoding a non-empty `src` whose first value exceeds `(1<<60) - 1`
returns the out-of-range error (no packed word, no values consumed — Go's
`(0, 0, err)` return, modelled as `none`); the streaming Encoder accepts such
values into its buffer on `Write` without error (here: any sequence of at
most 240 writes never flushes, so every value is simply buffered), and the
error surfaces from the terminal `Bytes()` call, which returns `nil` bytes
and the first packing error (`none`). -/
theorem C8_out_of_range_error (v : Nat) (vs : List Nat)
    (hv : Simple8b.MaxValue < v) (hlen : (v :: vs).length ≤ 240) :
    Simple8b.Encode (v :: vs) = none ∧
      Simple8b.writeList Simple8b.Enc.init (v :: vs) = some ⟨v :: vs, 0, []⟩ ∧
      Simple8b.streamBytes (v :: vs) = none := by
  have hfw := Simple8b.encodeFirstWord_head_oob v vs hv
  have hwl := Simple8b.writeList_no_flush (v :: vs) Simple8b.Enc.init rfl
    (by simp only [Simple8b.Enc.init, List.length_nil, List.length_cons] at hlen ⊢; omega)
  have hwl2 : Simple8b.writeList Simple8b.Enc.init (v :: vs) =
      some ⟨v :: vs, 0, []⟩ := by
    rw [hwl]
    rfl
  refine ⟨?_, hwl2, ?_⟩
  · rw [Simple8b.Encode, hfw, if_pos (by simp)]
  · rw [Simple8b.streamBytes, hwl2, Option.some_bind]
    exact Simple8b.Bytes_err_head ⟨v :: vs, 0, []⟩ v vs rfl hv

/-- Witness for C8 at the claim's concrete value `(1<<61) - 1` written alone
to a fresh streaming encoder. -/
theorem C8_witness :
    Simple8b.MaxValue < 2 ^ 61 - 1 ∧ ([2 ^ 61 - 1] : List Nat).length ≤ 240 ∧
    (Simple8b.Encode [2 ^ 61 - 1] = none ∧
      Simple8b.writeList Simple8b.Enc.init [2 ^ 61 - 1] =
        some ⟨[2 ^ 61 - 1], 0, []⟩ ∧
      Simple8b.streamBytes [2 ^ 61 - 1] = none) :=
  ⟨by decide, by decide, C8_out_of_range_error (2 ^ 61 - 1) [] (by decide) (by decide)⟩

/-! ### Lemmas: draining the streaming encoder reproduces the bulk encoding -/

namespace Simple8b

theorem encodeAllLoop_nil (f : Nat) : encodeAllLoop f [] = some [] := by
  cases f <;> rfl

theorem encodeAllLoop_cons_none (f x : Nat) (xs : List Nat)
    (h : encodeFirstWord (x :: xs) = none) :
    encodeAllLoop (f + 1) (x :: xs) = none := by
  simp only [encodeAllLoop, h]

theorem encodeAllLoop_cons_some (f x w n : Nat) (xs : List Nat)
    (h : encodeFirstWord (x :: xs) = some (w, n)) :
    encodeAllLoop (f + 1) (x :: xs) =
      (encodeAllLoop f ((x :: xs).drop n)).map (fun ws => w :: ws) := by
  simp only [encodeAllLoop, h]

/-- Any two sufficient fuels run the bulk loop to the same answer. -/
theorem encodeAllLoop_fuel_irrel :
    ∀ (f1 f2 : Nat) (src : List Nat), src.length ≤ f1 → src.length ≤ f2 →
      encodeAllLoop f1 src = encodeAllLoop f2 src := by
  intro f1
  induction f1 with
  | zero =>
    intro f2 src h1 _
    have hsrc : src = [] := List.eq_nil_of_length_eq_zero (by omega)
    subst hsrc
    rw [encodeAllLoop_nil, encodeAllLoop_nil]
  | succ f ih =>
    intro f2 src h1 h2
    cases src with
    | nil => rw [encodeAllLoop_nil, encodeAllLoop_nil]
    | cons x xs =>
      match f2, h2 with
      | g + 1, h2 =>
        cases hw : encodeFirstWord (x :: xs) with
        | none => rw [encodeAllLoop_cons_none f x xs hw, encodeAllLoop_cons_none g x xs hw]
        | some r =>
          obtain ⟨w, n⟩ := r
          obtain ⟨hn1, hnle, -, -, -⟩ := encodeFirstWord_spec _ _ _ hw
          have hd1 : ((x :: xs).drop n).length ≤ f := by
            rw [List.length_drop]
            simp only [List.length_cons] at h1 ⊢
            omega
          have hd2 : ((x :: xs).drop n).length ≤ g := by
            rw [List.length_drop]
            simp only [List.length_cons] at h2 ⊢
            omega
          rw [encodeAllLoop_cons_some f x w n xs hw, encodeAllLoop_cons_some g x w n xs hw,
            ih g ((x :: xs).drop n) hd1 hd2]

theorem flush_full (e : Enc) (w n : Nat) (hne : e.pending ≠ [])
    (hEnc : Encode e.pending = some (w, n)) (hfull : n = e.pending.length) :
    flush e = some ⟨[], 0, e.words ++ [w]⟩ := by
  have hlen : 0 < e.pending.length := List.length_pos.mpr hne
  rw [flush, if_neg (by simp only [beq_iff_eq]; omega), hEnc]
  show (if n == e.pending.length then some (⟨[], 0, e.words ++ [w]⟩ : Enc)
    else some ⟨e.pending.drop n, e.h + n, e.words ++ [w]⟩) = _
  rw [if_pos (by simp [hfull])]

theorem flush_part (e : Enc) (w n : Nat) (hne : e.pending ≠ [])
    (hEnc : Encode e.pending = some (w, n)) (hpart : n ≠ e.pending.length) :
    flush e = some ⟨e.pending.drop n, e.h + n, e.words ++ [w]⟩ := by
  have hlen : 0 < e.pending.length := List.length_pos.mpr hne
  rw [flush, if_neg (by simp only [beq_iff_eq]; omega), hEnc]
  show (if n == e.pending.length then some (⟨[], 0, e.words ++ [w]⟩ : Enc)
    else some ⟨e.pending.drop n, e.h + n, e.words ++ [w]⟩) = _
  rw [if_neg (by simp only [beq_iff_eq]; exact hpart)]

/-- Draining a buffer of in-range values emits exactly the bulk `EncodeAll`
words of the pending data, appended to the words already flushed. -/
theorem drainLoop_good :
    ∀ (fuel : Nat) (p : List Nat) (hh : Nat) (ws0 : List Nat),
      p.length ≤ fuel → (p = [] → hh = 0) → (∀ x ∈ p, x ≤ MaxValue) →
      drainLoop fuel ⟨p, hh, ws0⟩ = (EncodeAll p).map (fun ws => ws0 ++ ws) := by
  intro fuel
  induction fuel with
  | zero =>
    intro p hh ws0 hlen hinv hv
    have hp : p = [] := List.eq_nil_of_length_eq_zero (by omega)
    subst hp
    rw [hinv rfl, drainLoop, if_pos (by simp)]
    simp [EncodeAll, encodeAllLoop]
  | succ fuel ih =>
    intro p hh ws0 hlen hinv hv
    cases hp : p with
    | nil =>
      subst hp
      rw [hinv rfl, drainLoop, if_pos (by simp)]
      simp [EncodeAll, encodeAllLoop]
    | cons v rest =>
      subst hp
      obtain ⟨w, n, hw⟩ := encodeFirstWord_isSome (v :: rest) (by simp) hv
      obtain ⟨hn1, hnle, -, -, -⟩ := encodeFirstWord_spec _ _ _ hw
      have hEnc : Encode (v :: rest) = some (w, n) := Encode_eq_firstWord _ _ hw
      rw [drainLoop, if_neg (by simp only [beq_iff_eq, List.length_cons]; omega)]
      by_cases hfull : n = (v :: rest).length
      · rw [flush_full ⟨v :: rest, hh, ws0⟩ w n (by simp) hEnc hfull, Option.some_bind]
        rw [ih [] 0 (ws0 ++ [w]) (by simp) (fun _ => rfl) (by simp)]
        have hEq : EncodeAll (v :: rest) = some [w] := by
          rw [EncodeAll]
          show encodeAllLoop (rest.length + 1) (v :: rest) = some [w]
          rw [encodeAllLoop_cons_some rest.length v w n rest hw]
          have hdnil : (v :: rest).drop n = [] := by
            rw [hfull]
            exact List.drop_length (v :: rest)
          rw [hdnil, encodeAllLoop_nil]
          rfl
        rw [hEq]
        simp [EncodeAll, encodeAllLoop]
      · rw [flush_part ⟨v :: rest, hh, ws0⟩ w n (by simp) hEnc hfull, Option.some_bind]
        have hdlen : ((v :: rest).drop n).length ≤ fuel := by
          rw [List.length_drop]
          simp only [List.length_cons] at hlen ⊢
          omega
        have hdne : (v :: rest).drop n ≠ [] := by
          intro hnil
          have hl := congrArg List.length hnil
          rw [List.length_drop] at hl
          simp only [List.length_cons, List.length_nil] at hl hfull hnle
          omega
        rw [ih ((v :: rest).drop n) (hh + n) (ws0 ++ [w]) hdlen
          (fun hnil => absurd hnil hdne)
          (fun x hx => hv x (List.drop_subset _ _ hx))]
        have hEq : EncodeAll (v :: rest) =
            (EncodeAll ((v :: rest).drop n)).map (fun ws => w :: ws) := by
          rw [EncodeAll]
          show encodeAllLoop (rest.length + 1) (v :: rest) = _
          rw [encodeAllLoop_cons_some rest.length v w n rest hw,
            encodeAllLoop_fuel_irrel rest.length ((v :: rest).drop n).length
              ((v :: rest).drop n)
              (by rw [List.length_drop]; simp only [List.length_cons] at hnle ⊢; omega)
              le_rfl]
          rfl
        rw [hEq]
        cases hX : EncodeAll ((v :: rest).drop n) with
        | none => rfl
        | some l => simp

end Simple8b

/-! ### Claim C2 (corrected): streaming vs bulk bytes -/

set_option maxRecDepth 20000 in
/-- Counterexample to C2 as stated: for `xs = 240 ones ++ [2]` — a valid
input, every element at most `(1<<60) - 1` — the streaming encoder's bytes
differ from the serialized words of `EncodeAll xs`.  The streaming encoder
flushes when the 241st value is written and at that moment its buffer holds
exactly 240 ones, so `canPack(buf, 240, 0)` sees only ones and emits a
selector-0 word (then one selector-15 word for the 2); the bulk encoder's
all-ones check scans the ENTIRE remaining input, sees the trailing 2, rejects
selectors 0 and 1, and emits four selector-2 words and a selector-15 word. -/
theorem C2_counterexample :
    (∀ x ∈ List.replicate 240 (1 : Nat) ++ [2], x ≤ Simple8b.MaxValue) ∧
      Simple8b.streamBytes (List.replicate 240 1 ++ [2]) ≠
        Simple8b.bulkBytes (List.replicate 240 1 ++ [2]) := by
  constructor
  · decide
  · decide

/-- C2 (amended): for every `xs` of AT MOST 240 values, all at most
`(1<<60) - 1`, writing the elements of `xs` one at a time to a fresh
streaming Encoder and calling `Bytes()` produces exactly the byte sequence
obtained by serializing each word of `EncodeAll xs` as 8 big-endian bytes in
order.  (Beyond 240 values the two sides can differ, because the streaming
encoder's selector-0/1 all-ones check sees only its 240-value window while
the bulk encoder scans the entire remaining input — see
`C2_counterexample`.) -/
theorem C2_streaming_eq_bulk_le240 (xs : List Nat)
    (hlen : xs.length ≤ 240) (hv : ∀ x ∈ xs, x ≤ Simple8b.MaxValue) :
    ∃ bs, Simple8b.streamBytes xs = some bs ∧ Simple8b.bulkBytes xs = some bs := by
  have hwl := Simple8b.writeList_no_flush xs Simple8b.Enc.init rfl
    (by simpa [Simple8b.Enc.init] using hlen)
  obtain ⟨ws, hws, -, -⟩ := Simple8b.EncodeAll_spec xs hv
  refine ⟨ws.flatMap Simple8b.word8BE, ?_, ?_⟩
  · rw [Simple8b.streamBytes, hwl, Option.some_bind]
    show (Simple8b.drainLoop xs.length ⟨xs, 0, []⟩).map
      (fun ws => ws.flatMap Simple8b.word8BE) = _
    rw [Simple8b.drainLoop_good xs.length xs 0 [] le_rfl (fun _ => rfl) hv, hws]
    rfl
  · rw [Simple8b.bulkBytes, hws]
    rfl

/-- Witness for the amended C2 at the concrete input `0,1,…,29`. -/
theorem C2_witness :
    (List.range 30).length ≤ 240 ∧ (∀ x ∈ List.range 30, x ≤ Simple8b.MaxValue) ∧
    ∃ bs, Simple8b.streamBytes (List.range 30) = some bs ∧
      Simple8b.bulkBytes (List.range 30) = some bs :=
  ⟨by decide, by decide, C2_streaming_eq_bulk_le240 (List.range 30) (by decide) (by decide)⟩

/-! ### Lemmas: min/max/divisor accumulation (reference10 and reduce) -/

namespace Delta

theorem foldl_mmdStep_fst (l : List Int) :
    ∀ acc : Int × Int × Nat,
      (l.foldl mmdStep acc).1 =
        l.foldl (fun m v => if v < m then v else m) acc.1 := by
  induction l with
  | nil => intro acc; rfl
  | cons v l ih =>
    intro acc
    rw [List.foldl_cons, List.foldl_cons, ih (mmdStep acc v)]
    rfl

theorem foldl_mmdStep_max (l : List Int) :
    ∀ acc : Int × Int × Nat,
      (l.foldl mmdStep acc).2.1 =
        l.foldl (fun M v => if v > M then v else M) acc.2.1 := by
  induction l with
  | nil => intro acc; rfl
  | cons v l ih =>
    intro acc
    rw [List.foldl_cons, List.foldl_cons, ih (mmdStep acc v)]
    rfl

theorem foldl_mmdStep_div (l : List Int) :
    ∀ acc : Int × Int × Nat,
      (l.foldl mmdStep acc).2.2 =
        l.foldl (fun d v => divisorShrink 13 d v) acc.2.2 := by
  induction l with
  | nil => intro acc; rfl
  | cons v l ih =>
    intro acc
    rw [List.foldl_cons, List.foldl_cons, ih (mmdStep acc v)]
    rfl

/-- The running-minimum fold yields a member of `a :: l` that bounds every
element of `a :: l` from below. -/
theorem foldl_min_spec (l : List Int) :
    ∀ a : Int,
      l.foldl (fun m v => if v < m then v else m) a ∈ a :: l ∧
        ∀ x ∈ a :: l, l.foldl (fun m v => if v < m then v else m) a ≤ x := by
  induction l with
  | nil =>
    intro a
    refine ⟨by simp, ?_⟩
    intro x hx
    simp only [List.foldl_nil]
    simp only [List.mem_cons, List.not_mem_nil, or_false] at hx
    omega
  | cons v l ih =>
    intro a
    obtain ⟨hmem, hbound⟩ := ih (if v < a then v else a)
    have hstep_le_a : (if v < a then v else a) ≤ a := by split <;> omega
    have hstep_le_v : (if v < a then v else a) ≤ v := by split <;> omega
    rw [List.foldl_cons]
    constructor
    · rcases List.mem_cons.mp hmem with h | h
      · rw [h]
        by_cases hva : v < a
        · simp [hva]
        · simp [hva]
      · simp [h]
    · intro x hx
      rcases List.mem_cons.mp hx with rfl | hx2
      · exact le_trans (hbound _ (by simp)) hstep_le_a
      rcases List.mem_cons.mp hx2 with rfl | hx3
      · exact le_trans (hbound _ (by simp)) hstep_le_v
      · exact hbound x (by simp [hx3])

/-- The running-maximum fold (`if v > M then v else M`) yields a value at
least `a`, bounding every element of `l`, and equal to `a` or a member of
`l`. -/
theorem foldl_max_spec (l : List Int) :
    ∀ a : Int,
      a ≤ l.foldl (fun M v => if v > M then v else M) a ∧
        (∀ x ∈ l, x ≤ l.foldl (fun M v => if v > M then v else M) a) ∧
        (l.foldl (fun M v => if v > M then v else M) a = a ∨
          l.foldl (fun M v => if v > M then v else M) a ∈ l) := by
  induction l with
  | nil =>
    intro a
    exact ⟨le_refl a, by simp, Or.inl rfl⟩
  | cons v l ih =>
    intro a
    obtain ⟨hge, hbound, hmem⟩ := ih (if v > a then v else a)
    have ha_le : a ≤ (if v > a then v else a) := by split <;> omega
    have hv_le : v ≤ (if v > a then v else a) := by split <;> omega
    rw [List.foldl_cons]
    refine ⟨le_trans ha_le hge, ?_, ?_⟩
    · intro x hx
      rcases List.mem_cons.mp hx with rfl | hx2
      · exact le_trans hv_le hge
      · exact hbound x hx2
    · rcases hmem with h | h
      · rw [h]
        by_cases hva : v > a
        · simp [hva]
        · simp [hva]
      · simp [h]

/-- The inner shrink loop started at `10^e` with enough fuel lands on the
largest power of ten `10^k` with `k ≤ e` dividing `v`. -/
theorem divisorShrink_spec (v : Int) :
    ∀ (e fuel : Nat), e ≤ fuel →
      ∃ k ≤ e, divisorShrink fuel (10 ^ e) v = 10 ^ k ∧
        ((10 ^ k : Nat) : Int) ∣ v ∧
        ∀ j ≤ e, ((10 ^ j : Nat) : Int) ∣ v → j ≤ k := by
  intro e
  induction e with
  | zero =>
    intro fuel _
    refine ⟨0, le_refl 0, ?_, by simp, fun j hj _ => hj⟩
    cases fuel with
    | zero => rfl
    | succ f =>
      rw [divisorShrink, if_pos (by simp [Int.emod_one])]
  | succ e ih =>
    intro fuel hfuel
    match fuel, hfuel with
    | f + 1, hfuel =>
      by_cases hdvd : v % ((10 ^ (e + 1) : Nat) : Int) = 0
      · refine ⟨e + 1, le_refl _, ?_, Int.dvd_of_emod_eq_zero hdvd, fun j hj _ => hj⟩
        rw [divisorShrink, if_pos hdvd]
      · have hdiv10 : (10 : Nat) ^ (e + 1) / 10 = 10 ^ e := by
          rw [pow_succ, Nat.mul_div_cancel _ (by norm_num)]
        obtain ⟨k, hk, heq, hkdvd, hmax⟩ := ih f (by omega)
        refine ⟨k, by omega, ?_, hkdvd, ?_⟩
        · rw [divisorShrink, if_neg hdvd, hdiv10, heq]
        · intro j hj hjdvd
          rcases Nat.lt_or_ge j (e + 1) with hlt | hge
          · exact hmax j (by omega) hjdvd
          · exfalso
            have hje : j = e + 1 := by omega
            subst hje
            exact hdvd (Int.emod_eq_zero_of_dvd hjdvd)

/-- Folding the shrink loop over a list, from `10^e`, lands on the largest
power of ten `10^k` with `k ≤ e` dividing every element. -/
theorem foldl_div_spec (l : List Int) :
    ∀ e : Nat, e ≤ 12 →
      ∃ k ≤ e, l.foldl (fun d v => divisorShrink 13 d v) (10 ^ e) = 10 ^ k ∧
        (∀ v ∈ l, ((10 ^ k : Nat) : Int) ∣ v) ∧
        ∀ j ≤ e, (∀ v ∈ l, ((10 ^ j : Nat) : Int) ∣ v) → j ≤ k := by
  induction l with
  | nil =>
    intro e he
    exact ⟨e, le_refl e, rfl, by simp, fun j hj _ => hj⟩
  | cons v l ih =>
    intro e he
    obtain ⟨k1, hk1, heq1, hdvd1, hmax1⟩ := divisorShrink_spec v e 13 (by omega)
    obtain ⟨k, hk, heq, hdvd, hmax⟩ := ih k1 (by omega)
    refine ⟨k, by omega, ?_, ?_, ?_⟩
    · rw [List.foldl_cons, heq1, heq]
    · intro x hx
      rcases List.mem_cons.mp hx with rfl | hx2
      · exact dvd_trans (by exact_mod_cast pow_dvd_pow 10 hk) hdvd1
      · exact hdvd x hx2
    · intro j hj hjdvd
      have hj1 : j ≤ k1 := hmax1 j hj (hjdvd v (by simp))
      exact hmax j hj1 (fun x hx => hjdvd x (by simp [hx]))

end Delta

/-! ### Claims C6 and C7 -/

/-- Counterexample to C6 as stated: on the delta sequence `[0, 10]` the
smallest element among indices ≥ 1 is `10`, but `reference10` returns
`min = 0` — the element at index 0 seeds the minimum (`min = src[0]` before
the loop), so index 0 is NOT excluded from the min computation. -/
theorem C6_counterexample :
    (Delta.reference10 [0, 10]).1 = 0 ∧ (10 : Int) ∈ [(0 : Int), 10].tail ∧
      (∀ x ∈ [(0 : Int), 10].tail, (10 : Int) ≤ x) ∧
      (Delta.reference10 [0, 10]).1 ≠ 10 := by
  refine ⟨by decide, by decide, by decide, by decide⟩

/-- C6 (amended): for a delta-encoded sequence of length ≥ 1, `reference10`
(and the equivalent accumulation inside the timestamp encoder's `reduce`)
returns `min` equal to the smallest element among ALL indices `0..end` — the
element at index 0 is the loop's initial value, so it is NOT excluded from
the min — and `max` equal to the largest element among indices `1..end`
(0 if all those elements are at most 0); only the max excludes index 0. -/
theorem C6_min_max_amended (src ts : List Int) (hsrc : src ≠ []) (hts : ts ≠ []) :
    ((Delta.reference10 src).1 ∈ src ∧ ∀ x ∈ src, (Delta.reference10 src).1 ≤ x) ∧
    (0 ≤ (Delta.reference10 src).2.1 ∧
      (∀ x ∈ src.tail, x ≤ (Delta.reference10 src).2.1) ∧
      ((Delta.reference10 src).2.1 = 0 ∨ (Delta.reference10 src).2.1 ∈ src.tail)) ∧
    ((Timestamp.encReduce ts).1 ∈ Timestamp.deltaList ts ∧
      ∀ x ∈ Timestamp.deltaList ts, (Timestamp.encReduce ts).1 ≤ x) ∧
    (0 ≤ (Timestamp.encReduce ts).2.1 ∧
      (∀ x ∈ (Timestamp.deltaList ts).tail, x ≤ (Timestamp.encReduce ts).2.1) ∧
      ((Timestamp.encReduce ts).2.1 = 0 ∨
        (Timestamp.encReduce ts).2.1 ∈ (Timestamp.deltaList ts).tail)) := by
  match src, hsrc, ts, hts with
  | h :: t, _, t0 :: rest, _ =>
    have e1 : Delta.reference10 (h :: t) = t.foldl Delta.mmdStep (h, 0, 10 ^ 12) := rfl
    have hmin := Delta.foldl_min_spec t h
    have hmax := Delta.foldl_max_spec t (0 : Int)
    refine ⟨?_, ?_, ?_, ?_⟩
    · rw [e1, Delta.foldl_mmdStep_fst]
      exact hmin
    · rw [e1, Delta.foldl_mmdStep_max]
      exact ⟨hmax.1, fun x hx => hmax.2.1 x hx, hmax.2.2⟩
    · have e2 : (Timestamp.encReduce (t0 :: rest)).1 =
          ((List.zipWith (fun a b => a - b) rest (t0 :: rest)).reverse.foldl
            Delta.mmdStep (t0, 0, 10 ^ 12)).1 := rfl
      have e3 : Timestamp.deltaList (t0 :: rest) =
          t0 :: List.zipWith (fun a b => a - b) rest (t0 :: rest) := rfl
      have hmin2 := Delta.foldl_min_spec
        (List.zipWith (fun a b => a - b) rest (t0 :: rest)).reverse t0
      rw [e2, Delta.foldl_mmdStep_fst, e3]
      constructor
      · rcases List.mem_cons.mp hmin2.1 with hc | hc
        · rw [hc]
          exact List.mem_cons_self t0 _
        · rw [List.mem_reverse] at hc
          exact List.mem_cons_of_mem t0 hc
      · intro x hx
        rcases List.mem_cons.mp hx with rfl | hx2
        · exact hmin2.2 x (by simp)
        · exact hmin2.2 x (by simp [List.mem_reverse, hx2])
    · have e2 : (Timestamp.encReduce (t0 :: rest)).2.1 =
          ((List.zipWith (fun a b => a - b) rest (t0 :: rest)).reverse.foldl
            Delta.mmdStep (t0, 0, 10 ^ 12)).2.1 := rfl
      have e3 : (Timestamp.deltaList (t0 :: rest)).tail =
          List.zipWith (fun a b => a - b) rest (t0 :: rest) := rfl
      have hmax2 := Delta.foldl_max_spec
        (List.zipWith (fun a b => a - b) rest (t0 :: rest)).reverse (0 : Int)
      rw [e2, Delta.foldl_mmdStep_max, e3]
      refine ⟨hmax2.1, ?_, ?_⟩
      · intro x hx
        exact hmax2.2.1 x (by simp [List.mem_reverse, hx])
      · rcases hmax2.2.2 with hc | hc
        · exact Or.inl hc
        · rw [List.mem_reverse] at hc
          exact Or.inr hc

/-- Witness for the amended C6 at `src = [5, -3, 7]`, `ts = [1, 3]`. -/
theorem C6_witness :
    ([(5 : Int), -3, 7] ≠ []) ∧ ([(1 : Int), 3] ≠ []) ∧
    (((Delta.reference10 [5, -3, 7]).1 ∈ [(5 : Int), -3, 7] ∧
        ∀ x ∈ [(5 : Int), -3, 7], (Delta.reference10 [5, -3, 7]).1 ≤ x) ∧
      (0 ≤ (Delta.reference10 [5, -3, 7]).2.1 ∧
        (∀ x ∈ [(5 : Int), -3, 7].tail, x ≤ (Delta.reference10 [5, -3, 7]).2.1) ∧
        ((Delta.reference10 [5, -3, 7]).2.1 = 0 ∨
          (Delta.reference10 [5, -3, 7]).2.1 ∈ [(5 : Int), -3, 7].tail)) ∧
      ((Timestamp.encReduce [1, 3]).1 ∈ Timestamp.deltaList [1, 3] ∧
        ∀ x ∈ Timestamp.deltaList [1, 3], (Timestamp.encReduce [1, 3]).1 ≤ x) ∧
      (0 ≤ (Timestamp.encReduce [1, 3]).2.1 ∧
        (∀ x ∈ (Timestamp.deltaList [1, 3]).tail,
          x ≤ (Timestamp.encReduce [1, 3]).2.1) ∧
        ((Timestamp.encReduce [1, 3]).2.1 = 0 ∨
          (Timestamp.encReduce [1, 3]).2.1 ∈ (Timestamp.deltaList [1, 3]).tail))) :=
  ⟨by decide, by decide, C6_min_max_amended [5, -3, 7] [1, 3] (by decide) (by decide)⟩

/-- C7: for every delta-encoded sequence of length ≥ 1, the divisor returned
by `reference10` (and by the equivalent accumulation in the timestamp
encoder's `reduce`) is a power of ten `10^e` with `e ≤ 12` — in particular
`1 ≤ divisor ≤ 10^12` and the divisor is never 0 — it divides every element
at indices ≥ 1, and it is the largest power of ten not exceeding `10^12`
with that property. -/
theorem C7_divisor_pow10 (src ts : List Int) (hsrc : src ≠ []) (hts : ts ≠ []) :
    ((∃ e ≤ 12, (Delta.reference10 src).2.2 = 10 ^ e) ∧
      1 ≤ (Delta.reference10 src).2.2 ∧ (Delta.reference10 src).2.2 ≤ 10 ^ 12 ∧
      (∀ v ∈ src.tail, (((Delta.reference10 src).2.2 : Nat) : Int) ∣ v) ∧
      ∀ j ≤ 12, (∀ v ∈ src.tail, ((10 ^ j : Nat) : Int) ∣ v) →
        10 ^ j ≤ (Delta.reference10 src).2.2) ∧
    ((∃ e ≤ 12, (Timestamp.encReduce ts).2.2.1 = 10 ^ e) ∧
      1 ≤ (Timestamp.encReduce ts).2.2.1 ∧ (Timestamp.encReduce ts).2.2.1 ≤ 10 ^ 12 ∧
      (∀ v ∈ (Timestamp.deltaList ts).tail,
        (((Timestamp.encReduce ts).2.2.1 : Nat) : Int) ∣ v) ∧
      ∀ j ≤ 12, (∀ v ∈ (Timestamp.deltaList ts).tail, ((10 ^ j : Nat) : Int) ∣ v) →
        10 ^ j ≤ (Timestamp.encReduce ts).2.2.1) := by
  match src, hsrc, ts, hts with
  | h :: t, _, t0 :: rest, _ =>
    constructor
    · have e1 : (Delta.reference10 (h :: t)).2.2 =
          t.foldl (fun d v => Delta.divisorShrink 13 d v) (10 ^ 12) := by
        show (t.foldl Delta.mmdStep (h, 0, 10 ^ 12)).2.2 = _
        rw [Delta.foldl_mmdStep_div]
      obtain ⟨k, hk, heq, hdvd, hmax⟩ := Delta.foldl_div_spec t 12 le_rfl
      rw [e1, heq]
      refine ⟨⟨k, hk, rfl⟩, Nat.one_le_pow k 10 (by norm_num),
        Nat.pow_le_pow_right (by norm_num) hk, hdvd, ?_⟩
      intro j hj hjdvd
      exact Nat.pow_le_pow_right (by norm_num) (hmax j hj hjdvd)
    · have e1 : (Timestamp.encReduce (t0 :: rest)).2.2.1 =
          (List.zipWith (fun a b => a - b) rest (t0 :: rest)).reverse.foldl
            (fun d v => Delta.divisorShrink 13 d v) (10 ^ 12) := by
        show ((List.zipWith (fun a b => a - b) rest (t0 :: rest)).reverse.foldl
          Delta.mmdStep (t0, 0, 10 ^ 12)).2.2 = _
        rw [Delta.foldl_mmdStep_div]
      have e3 : (Timestamp.deltaList (t0 :: rest)).tail =
          List.zipWith (fun a b => a - b) rest (t0 :: rest) := rfl
      obtain ⟨k, hk, heq, hdvd, hmax⟩ := Delta.foldl_div_spec
        (List.zipWith (fun a b => a - b) rest (t0 :: rest)).reverse 12 le_rfl
      rw [e1, heq, e3]
      refine ⟨⟨k, hk, rfl⟩, Nat.one_le_pow k 10 (by norm_num),
        Nat.pow_le_pow_right (by norm_num) hk, ?_, ?_⟩
      · intro v hv
        exact hdvd v (by simp [List.mem_reverse, hv])
      · intro j hj hjdvd
        refine Nat.pow_le_pow_right (by norm_num) (hmax j hj ?_)
        intro v hv
        rw [List.mem_reverse] at hv
        exact hjdvd v hv

/-- Witness for C7 at `src = [0, 300]`, `ts = [5, 105]` (divisor 100 and 100
respectively). -/
theorem C7_witness :
    ([(0 : Int), 300] ≠ []) ∧ ([(5 : Int), 105] ≠ []) ∧
    (((∃ e ≤ 12, (Delta.reference10 [0, 300]).2.2 = 10 ^ e) ∧
        1 ≤ (Delta.reference10 [0, 300]).2.2 ∧
        (Delta.reference10 [0, 300]).2.2 ≤ 10 ^ 12 ∧
        (∀ v ∈ [(0 : Int), 300].tail,
          (((Delta.reference10 [0, 300]).2.2 : Nat) : Int) ∣ v) ∧
        ∀ j ≤ 12, (∀ v ∈ [(0 : Int), 300].tail, ((10 ^ j : Nat) : Int) ∣ v) →
          10 ^ j ≤ (Delta.reference10 [0, 300]).2.2) ∧
      ((∃ e ≤ 12, (Timestamp.encReduce [5, 105]).2.2.1 = 10 ^ e) ∧
        1 ≤ (Timestamp.encReduce [5, 105]).2.2.1 ∧
        (Timestamp.encReduce [5, 105]).2.2.1 ≤ 10 ^ 12 ∧
        (∀ v ∈ (Timestamp.deltaList [5, 105]).tail,
          (((Timestamp.encReduce [5, 105]).2.2.1 : Nat) : Int) ∣ v) ∧
        ∀ j ≤ 12, (∀ v ∈ (Timestamp.deltaList [5, 105]).tail,
            ((10 ^ j : Nat) : Int) ∣ v) →
          10 ^ j ≤ (Timestamp.encReduce [5, 105]).2.2.1)) :=
  ⟨by decide, by decide, C7_divisor_pow10 [0, 300] [5, 105] (by decide) (by decide)⟩

/-! ### Lemmas: timestamp dispatch structure -/

namespace Timestamp

theorem consecEq_iff :
    ∀ l : List Int, consecEq l = true ↔ ∃ c : Int, ∀ x ∈ l, x = c := by
  intro l
  induction l with
  | nil => exact ⟨fun _ => ⟨0, by simp⟩, fun _ => rfl⟩
  | cons a l ih =>
    cases l with
    | nil =>
      refine ⟨fun _ => ⟨a, by simp⟩, fun _ => rfl⟩
    | cons b r =>
      rw [show consecEq (a :: b :: r) = (a == b && consecEq (b :: r)) from rfl,
        Bool.and_eq_true, beq_iff_eq, ih]
      constructor
      · rintro ⟨rfl, c, hc⟩
        refine ⟨c, ?_⟩
        intro x hx
        rcases List.mem_cons.mp hx with rfl | hx2
        · exact hc x (by simp)
        · exact hc x hx2
      · rintro ⟨c, hc⟩
        have hb : b = c := hc b (by simp)
        have ha : a = c := hc a (by simp)
        exact ⟨by omega, c, fun x hx => hc x (by simp [hx])⟩

theorem log10Fuel_pow : ∀ (e f : Nat), e ≤ f → log10Fuel f (10 ^ e) = e := by
  intro e
  induction e with
  | zero =>
    intro f _
    cases f with
    | zero => rfl
    | succ g => rw [log10Fuel, if_pos (by norm_num)]
  | succ e ih =>
    intro f hf
    match f, hf with
    | g + 1, hf =>
      have h10 : ¬(10 ^ (e + 1) < 10) := by
        have : (10 : Nat) ^ 1 ≤ 10 ^ (e + 1) := Nat.pow_le_pow_right (by norm_num) (by omega)
        simpa using this
      rw [log10Fuel, if_neg h10, pow_succ, Nat.mul_div_cancel _ (by norm_num),
        ih g (by omega)]

theorem log10Nat_pow (e : Nat) (he : e ≤ 12) : log10Nat (10 ^ e) = e :=
  log10Fuel_pow e 13 (by omega)

/-- The upper nibble of a header byte `tag <<< 4 ||| e` with `e < 16`. -/
theorem header_nibble (tag e : Nat) (he : e < 16) :
    ((tag <<< 4) ||| e) >>> 4 = tag := by
  have h1 : (tag <<< 4) ||| e = e + 2 ^ 4 * tag := by
    rw [Nat.lor_comm, Nat.shiftLeft_eq, Nat.mul_comm tag]
    exact lor_two_pow_mul e tag 4 he
  rw [h1, Nat.shiftRight_eq_div_pow]
  rw [Nat.mul_comm, Nat.add_mul_div_right _ _ (by norm_num : 0 < 2 ^ 4)]
  have h2 : e / 2 ^ 4 = 0 := Nat.div_eq_of_lt (by omega)
  rw [h2, Nat.zero_add]

end Timestamp

namespace Timestamp

/-- Dispatch of `encoder.Bytes` on a non-empty buffer, phrased with
projections of the `reduce` result (definitional unfolding; structure eta
makes the tuple `match` reduce to projections). -/
theorem tsBytes_eq (t0 : Int) (rest : List Int) :
    tsBytes (t0 :: rest) =
      (if ((encReduce (t0 :: rest)).2.2.2.1 &&
            decide ((t0 :: rest).length > 60)) = true then
        some (encodeRLE (t0 :: rest).headI ((t0 :: rest).tail.headI - (t0 :: rest).headI)
          (encReduce (t0 :: rest)).2.2.1 (t0 :: rest).length)
      else if (encReduce (t0 :: rest)).2.1 > (2 : Int) ^ 60 - 1 then
        some (encodeRaw (t0 :: rest))
      else
        encodePacked (encReduce (t0 :: rest)).1 (encReduce (t0 :: rest)).2.2.1
          (encReduce (t0 :: rest)).2.2.2.2) := rfl

/-- The five components of `encReduce` on a non-empty input, in terms of the
shared accumulation fold. -/
theorem encReduce_fields (t0 : Int) (rest : List Int) :
    (encReduce (t0 :: rest)).1 =
      ((List.zipWith (fun a b => a - b) rest (t0 :: rest)).reverse.foldl
        Delta.mmdStep (t0, 0, 10 ^ 12)).1 ∧
    (encReduce (t0 :: rest)).2.1 =
      ((List.zipWith (fun a b => a - b) rest (t0 :: rest)).reverse.foldl
        Delta.mmdStep (t0, 0, 10 ^ 12)).2.1 ∧
    (encReduce (t0 :: rest)).2.2.1 =
      ((List.zipWith (fun a b => a - b) rest (t0 :: rest)).reverse.foldl
        Delta.mmdStep (t0, 0, 10 ^ 12)).2.2 ∧
    (encReduce (t0 :: rest)).2.2.2.1 =
      (consecEq ((List.zipWith (fun a b => a - b) rest (t0 :: rest)).map fun v =>
          (v - ((List.zipWith (fun a b => a - b) rest (t0 :: rest)).reverse.foldl
            Delta.mmdStep (t0, 0, 10 ^ 12)).1) /
          (((List.zipWith (fun a b => a - b) rest (t0 :: rest)).reverse.foldl
            Delta.mmdStep (t0, 0, 10 ^ 12)).2.2 : Int)) &&
        decide ((t0 :: rest).length > 1)) ∧
    (encReduce (t0 :: rest)).2.2.2.2 =
      t0 :: ((List.zipWith (fun a b => a - b) rest (t0 :: rest)).map fun v =>
          (v - ((List.zipWith (fun a b => a - b) rest (t0 :: rest)).reverse.foldl
            Delta.mmdStep (t0, 0, 10 ^ 12)).1) /
          (((List.zipWith (fun a b => a - b) rest (t0 :: rest)).reverse.foldl
            Delta.mmdStep (t0, 0, 10 ^ 12)).2.2 : Int)) :=
  ⟨rfl, rfl, rfl, rfl, rfl⟩

/-- The `reduce` divisor is an exact power of ten with exponent at most 12
(needed to decode the header's log10 nibble). -/
theorem encReduce_div_pow10 (t0 : Int) (rest : List Int) :
    ∃ e ≤ 12, (encReduce (t0 :: rest)).2.2.1 = 10 ^ e := by
  have e1 : (encReduce (t0 :: rest)).2.2.1 =
      (List.zipWith (fun a b => a - b) rest (t0 :: rest)).reverse.foldl
        (fun d v => Delta.divisorShrink 13 d v) (10 ^ 12) := by
    rw [(encReduce_fields t0 rest).2.2.1, Delta.foldl_mmdStep_div]
  obtain ⟨k, hk, heq, -, -⟩ := Delta.foldl_div_spec
    (List.zipWith (fun a b => a - b) rest (t0 :: rest)).reverse 12 le_rfl
  exact ⟨k, hk, by rw [e1, heq]⟩

/-- Head byte of an RLE frame whose divisor is `10^e`, `e ≤ 12`. -/
theorem encodeRLE_head (first delta : Int) (mod n : Nat) (e : Nat) (he : e ≤ 12)
    (hmod : mod = 10 ^ e) :
    (encodeRLE first delta mod n).headD 0 >>> 4 = 1 := by
  show ((1 <<< 4) ||| log10Nat mod) >>> 4 = 1
  rw [hmod, log10Nat_pow e he]
  exact header_nibble 1 e (by omega)

/-- Head byte of a Raw frame. -/
theorem encodeRaw_head (ts : List Int) : (encodeRaw ts).headD 0 >>> 4 = 2 := by
  show (2 <<< 4 : Nat) >>> 4 = 2
  rw [Nat.shiftLeft_eq, Nat.shiftRight_eq_div_pow]

/-- A successful Packed frame starts with the Packed header byte. -/
theorem encodePacked_some_head (mn : Int) (mod : Nat) (dts : List Int)
    (bs : List Nat) (e : Nat) (he : e ≤ 12) (hmod : mod = 10 ^ e)
    (h : encodePacked mn mod dts = some bs) : bs.headD 0 >>> 4 = 0 := by
  rw [encodePacked] at h
  cases hB : Simple8b.Bytes ((dts.tail.map u64ofInt).foldl Simple8b.writeIgn
      Simple8b.Enc.init) with
  | none => rw [hB] at h; cases h
  | some body =>
    rw [hB] at h
    injection h with h2
    rw [← h2]
    show ((0 <<< 4) ||| log10Nat mod) >>> 4 = 0
    rw [hmod, log10Nat_pow e he]
    exact header_nibble 0 e (by omega)

end Timestamp

/-! ### Lemmas: streaming encoder with flushes (success and failure) -/

namespace Simple8b

/-- After a successful flush inside `Write`, the value is appended to the
flushed state's pending data (the shift only moves the head index). -/
theorem write_some_after_flush (e σ : Enc) (v : Nat)
    (hc : e.h + e.pending.length ≥ 240) (hf : flush e = some σ) :
    ∃ h2, write e v = some ⟨σ.pending ++ [v], h2, σ.words⟩ := by
  rw [write, if_pos hc, hf, Option.some_bind]
  by_cases hc2 : σ.h + σ.pending.length ≥ 240
  · exact ⟨0, by simp only [if_pos hc2]⟩
  · exact ⟨σ.h, by simp only [if_neg hc2]⟩

/-- `Write` never rejects a value outright: given in-range pending data it
always succeeds, and the resulting pending data consists of old pending
values plus `v` at the end. -/
theorem write_ok (e : Enc) (v : Nat)
    (hv : ∀ x ∈ e.pending, x ≤ MaxValue) (hinv : e.pending = [] → e.h = 0) :
    ∃ e2 : Enc, write e v = some e2 ∧
      (∀ x ∈ e2.pending, x = v ∨ x ∈ e.pending) ∧ e2.pending ≠ [] := by
  by_cases hc : e.h + e.pending.length ≥ 240
  · have hne : e.pending ≠ [] := by
      intro hnil
      rw [hinv hnil, hnil] at hc
      simp at hc
    obtain ⟨w, n, hw⟩ := encodeFirstWord_isSome e.pending hne hv
    have hEnc := Encode_eq_firstWord _ _ hw
    obtain ⟨hn1, hnle, -, -, -⟩ := encodeFirstWord_spec _ _ _ hw
    by_cases hfull : n = e.pending.length
    · obtain ⟨h2, hwr⟩ := write_some_after_flush e _ v hc (flush_full e w n hne hEnc hfull)
      refine ⟨_, hwr, ?_, by simp⟩
      intro x hx
      simp only [List.nil_append, List.mem_singleton] at hx
      exact Or.inl hx
    · obtain ⟨h2, hwr⟩ := write_some_after_flush e _ v hc (flush_part e w n hne hEnc hfull)
      refine ⟨_, hwr, ?_, by simp⟩
      intro x hx
      rcases List.mem_append.mp hx with hx1 | hx1
      · exact Or.inr (List.drop_subset n e.pending hx1)
      · exact Or.inl (by simpa using hx1)
  · refine ⟨⟨e.pending ++ [v], e.h, e.words⟩, write_no_flush e v hc, ?_, by simp⟩
    intro x hx
    rcases List.mem_append.mp hx with hx1 | hx1
    · exact Or.inr hx1
    · exact Or.inl (by simpa using hx1)

/-- Folding `writeIgn` over in-range values preserves the encoder
invariant. -/
theorem writeIgnFold_inv (xs : List Nat) :
    ∀ (e : Enc), (∀ x ∈ xs, x ≤ MaxValue) → (∀ x ∈ e.pending, x ≤ MaxValue) →
      (e.pending = [] → e.h = 0) →
      (∀ x ∈ (xs.foldl writeIgn e).pending, x ≤ MaxValue) ∧
        ((xs.foldl writeIgn e).pending = [] → (xs.foldl writeIgn e).h = 0) := by
  induction xs with
  | nil =>
    intro e _ hv hinv
    exact ⟨hv, hinv⟩
  | cons v xs ih =>
    intro e hxs hv hinv
    obtain ⟨e2, hwr, hsub, hne⟩ := write_ok e v hv hinv
    have hstep : (v :: xs).foldl writeIgn e = xs.foldl writeIgn e2 := by
      rw [List.foldl_cons, writeIgn, hwr]
    rw [hstep]
    refine ih e2 (fun x hx => hxs x (by simp [hx])) ?_ (fun hnil => absurd hnil hne)
    intro x hx
    rcases hsub x hx with rfl | hx2
    · exact hxs x (by simp)
    · exact hv x hx2

/-- `Bytes` succeeds on any invariant-satisfying state with in-range pending
values. -/
theorem Bytes_ok (e : Enc) (hv : ∀ x ∈ e.pending, x ≤ MaxValue)
    (hinv : e.pending = [] → e.h = 0) : ∃ bs, Bytes e = some bs := by
  rw [Bytes]
  have hg := drainLoop_good e.pending.length e.pending e.h e.words le_rfl hinv hv
  rw [show (⟨e.pending, e.h, e.words⟩ : Enc) = e from rfl] at hg
  obtain ⟨ws, hws, -, -⟩ := EncodeAll_spec e.pending hv
  rw [hg, hws]
  exact ⟨_, rfl⟩

end Simple8b

namespace Simple8b

theorem mem_take_append (g r : List Nat) (b n : Nat) (h : g.length < n) :
    b ∈ (g ++ b :: r).take n := by
  rw [List.take_append_eq_append_take]
  refine List.mem_append.mpr (Or.inr ?_)
  match hk : n - g.length, (by omega : 1 ≤ n - g.length) with
  | k + 1, _ => simp [List.take_succ_cons]

/-- A successful greedy step on a source containing an out-of-range value at
position `|g|` consumes at most `|g|` values — the bad value is never
consumed. -/
theorem encodeFirstWord_bad_le (g r : List Nat) (b w n : Nat)
    (hb : MaxValue < b) (h : encodeFirstWord (g ++ b :: r) = some (w, n)) :
    n ≤ g.length := by
  have hones : ∀ m : Nat, canPack (g ++ b :: r) m 0 = true → False := by
    intro m hc
    have h1 := ((canPack_zero_iff _ m).mp hc).2 b (by simp)
    have h2 : (1 : Nat) ≤ MaxValue := by norm_num [MaxValue]
    omega
  have hbits : ∀ m bits : Nat, 1 ≤ bits → bits ≤ 60 →
      canPack (g ++ b :: r) m bits = true → m ≤ g.length := by
    intro m bits hb1 hb60 hc
    by_contra hgt
    have hch := (canPack_pos_iff _ m bits (by omega)).mp hc
    have hle := hch.2 b (mem_take_append g r b m (by omega))
    have h2 : (2 : Nat) ^ bits ≤ 2 ^ 60 := Nat.pow_le_pow_right (by norm_num) hb60
    have h3 : MaxValue = 2 ^ 60 - 1 := rfl
    omega
  rcases encodeFirstWord_cases _ _ _ h with
      ⟨hc, hw2, hn⟩ |
      ⟨hc, hw2, hn⟩ |
      ⟨hc, hw2, hn⟩ |
      ⟨hc, hw2, hn⟩ |
      ⟨hc, hw2, hn⟩ |
      ⟨hc, hw2, hn⟩ |
      ⟨hc, hw2, hn⟩ |
      ⟨hc, hw2, hn⟩ |
      ⟨hc, hw2, hn⟩ |
      ⟨hc, hw2, hn⟩ |
      ⟨hc, hw2, hn⟩ |
      ⟨hc, hw2, hn⟩ |
      ⟨hc, hw2, hn⟩ |
      ⟨hc, hw2, hn⟩ |
      ⟨hc, hw2, hn⟩ |
      ⟨hc, hw2, hn⟩
  · exact absurd hc (fun hcc => hones 240 hcc)
  · exact absurd hc (fun hcc => hones 120 hcc)
  · exact hn ▸ hbits 60 1 (by norm_num) (by norm_num) hc
  · exact hn ▸ hbits 30 2 (by norm_num) (by norm_num) hc
  · exact hn ▸ hbits 20 3 (by norm_num) (by norm_num) hc
  · exact hn ▸ hbits 15 4 (by norm_num) (by norm_num) hc
  · exact hn ▸ hbits 12 5 (by norm_num) (by norm_num) hc
  · exact hn ▸ hbits 10 6 (by norm_num) (by norm_num) hc
  · exact hn ▸ hbits 8 7 (by norm_num) (by norm_num) hc
  · exact hn ▸ hbits 7 8 (by norm_num) (by norm_num) hc
  · exact hn ▸ hbits 6 10 (by norm_num) (by norm_num) hc
  · exact hn ▸ hbits 5 12 (by norm_num) (by norm_num) hc
  · exact hn ▸ hbits 4 15 (by norm_num) (by norm_num) hc
  · exact hn ▸ hbits 3 20 (by norm_num) (by norm_num) hc
  · exact hn ▸ hbits 2 30 (by norm_num) (by norm_num) hc
  · exact hn ▸ hbits 1 60 (by norm_num) (by norm_num) hc

/-- `Encode` fails only when the cascade fails on a non-empty source. -/
theorem Encode_none_inv (src : List Nat) (h : Encode src = none) :
    encodeFirstWord src = none ∧ src ≠ [] := by
  cases hfw : encodeFirstWord src with
  | some r =>
    rw [Encode_eq_firstWord src r hfw] at h
    cases h
  | none =>
    simp only [Encode, hfw] at h
    by_cases hl : src.length > 0
    · refine ⟨rfl, ?_⟩
      intro hnil
      rw [hnil] at hl
      simp at hl
    · rw [if_neg hl] at h
      cases h

/-- A failing cascade on a non-empty source means some value is out of
range. -/
theorem firstWord_none_bad (src : List Nat) (h : encodeFirstWord src = none)
    (hne : src ≠ []) : ∃ x ∈ src, MaxValue < x := by
  by_contra hno
  push_neg at hno
  obtain ⟨w, n, hw⟩ := encodeFirstWord_isSome src hne (fun x hx => hno x hx)
  rw [hw] at h
  cases h

/-- `flush` fails only via a packing error. -/
theorem flush_none_inv (e : Enc) (h : flush e = none) :
    Encode e.pending = none ∧ e.pending ≠ [] := by
  by_cases hz : e.h + e.pending.length == 0
  · rw [flush, if_pos hz] at h
    cases h
  · rw [flush, if_neg hz] at h
    cases hE : Encode e.pending with
    | none =>
      refine ⟨rfl, ?_⟩
      obtain ⟨hfw, hne⟩ := Encode_none_inv e.pending hE
      exact hne
    | some p =>
      obtain ⟨w, n⟩ := p
      rw [hE] at h
      by_cases hfull : n == e.pending.length
      · rw [show (match some (w, n) with
          | none => (none : Option Enc)
          | some (w, n) =>
            if n == e.pending.length then some ⟨[], 0, e.words ++ [w]⟩
            else some ⟨e.pending.drop n, e.h + n, e.words ++ [w]⟩) =
          if n == e.pending.length then some ⟨[], 0, e.words ++ [w]⟩
          else some ⟨e.pending.drop n, e.h + n, e.words ++ [w]⟩ from rfl,
          if_pos hfull] at h
        cases h
      · rw [show (match some (w, n) with
          | none => (none : Option Enc)
          | some (w, n) =>
            if n == e.pending.length then some ⟨[], 0, e.words ++ [w]⟩
            else some ⟨e.pending.drop n, e.h + n, e.words ++ [w]⟩) =
          if n == e.pending.length then some ⟨[], 0, e.words ++ [w]⟩
          else some ⟨e.pending.drop n, e.h + n, e.words ++ [w]⟩ from rfl,
          if_neg (by simpa using hfull)] at h
        cases h

/-- `write` fails only when its flush fails. -/
theorem write_none_inv (e : Enc) (v : Nat) (h : write e v = none) :
    flush e = none := by
  by_cases hc : e.h + e.pending.length ≥ 240
  · cases hf : flush e with
    | none => rfl
    | some σ =>
      obtain ⟨h2, hwr⟩ := write_some_after_flush e σ v hc hf
      rw [hwr] at h
      cases h
  · rw [write_no_flush e v hc] at h
    cases h

/-- A successful `write` leaves `v` as the last pending value. -/
theorem write_some_pending (e e2 : Enc) (v : Nat) (h : write e v = some e2) :
    ∃ p0, e2.pending = p0 ++ [v] := by
  by_cases hc : e.h + e.pending.length ≥ 240
  · cases hf : flush e with
    | none =>
      rw [write, if_pos hc, hf] at h
      cases h
    | some σ =>
      obtain ⟨h2, hwr⟩ := write_some_after_flush e σ v hc hf
      rw [hwr] at h
      injection h with h3
      exact ⟨σ.pending, by rw [← h3]⟩
  · rw [write_no_flush e v hc] at h
    injection h with h3
    exact ⟨e.pending, by rw [← h3]⟩

/-- A flush on a buffer containing an out-of-range value either fails or
keeps the value in the pending region. -/
theorem flush_bad (e : Enc) (b : Nat) (hb : MaxValue < b) (g r : List Nat)
    (hp : e.pending = g ++ b :: r) :
    flush e = none ∨
      ∃ σ, flush e = some σ ∧ ∃ g2 r2, σ.pending = g2 ++ b :: r2 := by
  have hne : e.pending ≠ [] := by rw [hp]; simp
  cases hE : Encode e.pending with
  | none => exact Or.inl (flush_err e hne hE)
  | some p =>
    obtain ⟨w, n⟩ := p
    rcases Encode_some_inv _ _ hE with hfw | ⟨-, hnil⟩
    · have hnle : n ≤ g.length := by
        refine encodeFirstWord_bad_le g r b w n hb ?_
        rw [← hp]
        exact hfw
      have hlt : n ≠ e.pending.length := by
        rw [hp]
        simp only [List.length_append, List.length_cons]
        omega
      refine Or.inr ⟨_, flush_part e w n hne hE hlt, g.drop n, r, ?_⟩
      show e.pending.drop n = g.drop n ++ b :: r
      rw [hp, List.drop_append_of_le_length hnle]
    · exact absurd hnil hne

/-- A `writeIgn` step keeps an out-of-range value in the pending region. -/
theorem write_bad (e : Enc) (v b : Nat) (hb : MaxValue < b) (g r : List Nat)
    (hp : e.pending = g ++ b :: r) :
    ∃ g2 r2, (writeIgn e v).pending = g2 ++ b :: r2 := by
  by_cases hc : e.h + e.pending.length ≥ 240
  · rcases flush_bad e b hb g r hp with hnone | ⟨σ, hσ, g2, r2, hσp⟩
    · have hwn : write e v = none := by
        rw [write, if_pos hc, hnone]
        rfl
      rw [writeIgn, hwn]
      exact ⟨g, r, hp⟩
    · obtain ⟨h2, hwr⟩ := write_some_after_flush e σ v hc hσ
      rw [writeIgn, hwr]
      exact ⟨g2, r2 ++ [v], by show σ.pending ++ [v] = _; rw [hσp]; simp⟩
  · rw [writeIgn, write_no_flush e v hc]
    exact ⟨g, r ++ [v], by show e.pending ++ [v] = _; rw [hp]; simp⟩

/-- Folding `writeIgn` over a value stream that contains (or whose encoder
state already holds) an out-of-range value ends with an out-of-range value
still pending. -/
theorem foldIgn_keeps_bad (xs : List Nat) :
    ∀ (e : Enc),
      ((∃ b ∈ e.pending, MaxValue < b) ∨ (∃ b ∈ xs, MaxValue < b)) →
      ∃ b ∈ (xs.foldl writeIgn e).pending, MaxValue < b := by
  induction xs with
  | nil =>
    intro e h
    rcases h with h | ⟨b, hbm, -⟩
    · exact h
    · simp at hbm
  | cons v xs ih =>
    intro e h
    rw [List.foldl_cons]
    refine ih (writeIgn e v) ?_
    rcases h with ⟨b, hbm, hb⟩ | ⟨b, hbm, hb⟩
    · obtain ⟨g, r, hsplit⟩ := List.append_of_mem hbm
      obtain ⟨g2, r2, h2⟩ := write_bad e v b hb g r hsplit
      exact Or.inl ⟨b, by rw [h2]; simp, hb⟩
    · rcases List.mem_cons.mp hbm with rfl | hmem
      · cases hw : write e b with
        | none =>
          have hfn := write_none_inv e b hw
          obtain ⟨hE, hne⟩ := flush_none_inv e hfn
          obtain ⟨hfw, -⟩ := Encode_none_inv e.pending hE
          obtain ⟨x, hxm, hx⟩ := firstWord_none_bad e.pending hfw hne
          rw [writeIgn, hw]
          exact Or.inl ⟨x, hxm, hx⟩
        | some e2 =>
          obtain ⟨p0, hp0⟩ := write_some_pending e e2 b hw
          rw [writeIgn, hw]
          exact Or.inl ⟨b, by rw [hp0]; simp, hb⟩
      · exact Or.inr ⟨b, hmem, hb⟩

/-- Draining a buffer that still holds an out-of-range value always ends in
the packing error. -/
theorem drainLoop_bad :
    ∀ (fuel : Nat) (e : Enc), (∃ b ∈ e.pending, MaxValue < b) →
      drainLoop fuel e = none := by
  intro fuel
  induction fuel with
  | zero =>
    intro e ⟨b, hbm, hb⟩
    have hne : e.pending ≠ [] := by
      intro hnil
      rw [hnil] at hbm
      simp at hbm
    rw [drainLoop, if_neg (by
      simp only [beq_iff_eq]
      have : 0 < e.pending.length := List.length_pos.mpr hne
      omega)]
  | succ fuel ih =>
    intro e ⟨b, hbm, hb⟩
    have hne : e.pending ≠ [] := by
      intro hnil
      rw [hnil] at hbm
      simp at hbm
    rw [drainLoop, if_neg (by
      simp only [beq_iff_eq]
      have : 0 < e.pending.length := List.length_pos.mpr hne
      omega)]
    obtain ⟨g, r, hsplit⟩ := List.append_of_mem hbm
    rcases flush_bad e b hb g r hsplit with hnone | ⟨σ, hσ, g2, r2, hσp⟩
    · rw [hnone]
      rfl
    · rw [hσ, Option.some_bind]
      exact ih σ ⟨b, by rw [hσp]; simp, hb⟩

/-- `Bytes` fails on a state still holding an out-of-range value. -/
theorem Bytes_bad (e : Enc) (hb : ∃ b ∈ e.pending, MaxValue < b) :
    Bytes e = none := by
  rw [Bytes, drainLoop_bad e.pending.length e hb]
  rfl

end Simple8b

namespace Timestamp

/-- A Packed frame is produced whenever every scaled delta fits in 60 bits. -/
theorem encodePacked_ok (mn : Int) (mod : Nat) (dts : List Int)
    (hgood : ∀ x ∈ dts.tail, u64ofInt x ≤ Simple8b.MaxValue) :
    ∃ bs, encodePacked mn mod dts = some bs := by
  have hfold := Simple8b.writeIgnFold_inv (dts.tail.map u64ofInt) Simple8b.Enc.init
    (fun x hx => by
      obtain ⟨y, hy, rfl⟩ := List.mem_map.mp hx
      exact hgood y hy)
    (by simp [Simple8b.Enc.init]) (fun _ => rfl)
  obtain ⟨body, hB⟩ := Simple8b.Bytes_ok _ hfold.1 hfold.2
  rw [encodePacked, hB]
  exact ⟨_, rfl⟩

/-- `Bytes` errors out instead of emitting a Packed frame whenever some
scaled delta exceeds the Simple8b ceiling. -/
theorem encodePacked_err (mn : Int) (mod : Nat) (dts : List Int)
    (hbad : ∃ x ∈ dts.tail, Simple8b.MaxValue < u64ofInt x) :
    encodePacked mn mod dts = none := by
  obtain ⟨x, hx, hbx⟩ := hbad
  have hkeep := Simple8b.foldIgn_keeps_bad (dts.tail.map u64ofInt)
    Simple8b.Enc.init (Or.inr ⟨u64ofInt x, List.mem_map_of_mem _ hx, hbx⟩)
  rw [encodePacked, Simple8b.Bytes_bad _ hkeep]
  rfl

/-- The code's RLE gate is the claim's condition: all scaled deltas at
indices ≥ 1 equal and more than 60 buffered values. -/
theorem gate_iff (t0 : Int) (rest : List Int) :
    (((encReduce (t0 :: rest)).2.2.2.1 &&
        decide ((t0 :: rest).length > 60)) = true) ↔
      ((∃ c, ∀ x ∈ (encReduce (t0 :: rest)).2.2.2.2.tail, x = c) ∧
        60 < (t0 :: rest).length) := by
  have hf := encReduce_fields t0 rest
  rw [hf.2.2.2.1, show (encReduce (t0 :: rest)).2.2.2.2.tail =
    ((List.zipWith (fun a b => a - b) rest (t0 :: rest)).map fun v =>
      (v - ((List.zipWith (fun a b => a - b) rest (t0 :: rest)).reverse.foldl
        Delta.mmdStep (t0, 0, 10 ^ 12)).1) /
      (((List.zipWith (fun a b => a - b) rest (t0 :: rest)).reverse.foldl
        Delta.mmdStep (t0, 0, 10 ^ 12)).2.2 : Int)) from by rw [hf.2.2.2.2]; rfl]
  rw [Bool.and_eq_true, Bool.and_eq_true, consecEq_iff]
  simp only [decide_eq_true_eq]
  constructor
  · rintro ⟨⟨hcons, -⟩, h60⟩
    exact ⟨hcons, h60⟩
  · rintro ⟨hcons, h60⟩
    refine ⟨⟨hcons, ?_⟩, h60⟩
    simp only [List.length_cons] at h60 ⊢
    omega

end Timestamp

/-! ### Claim C5 (corrected) -/

/-- Counterexample to C5 as stated: for `ts = [0, 2^59, 0]` neither the RLE
gate nor the Raw condition holds (the reference max delta is `2^59`), so the
claim promises a Packed frame; but the FOR transform scales the second delta
to `(2^59 - (-2^59)) / 1 = 2^60 > (1<<60) - 1`, the Simple8b packer rejects
it, and `Bytes` returns an error — no frame at all. -/
theorem C5_counterexample :
    ((Timestamp.encReduce [0, 2 ^ 59, 0]).2.2.2.1 &&
      decide (([0, 2 ^ 59, 0] : List Int).length > 60)) = false ∧
    ¬((Timestamp.encReduce [0, 2 ^ 59, 0]).2.1 > (2 : Int) ^ 60 - 1) ∧
    Timestamp.tsBytes [0, 2 ^ 59, 0] = none := by
  refine ⟨by decide, by decide, by decide⟩

/-- C5 (amended): an empty buffer yields an empty byte sequence; for every
non-empty buffered `ts`, `Bytes()` emits an RLE frame iff all scaled deltas
at indices ≥ 1 are equal and `len(ts) > 60`; otherwise it emits a Raw frame
iff the reference maximum delta exceeds `(1<<60) - 1`; otherwise it emits a
Packed frame IF every scaled delta fits in 60 bits — and when some scaled
delta exceeds `(1<<60) - 1` (possible because the frame-of-reference minimum
can be negative), `Bytes()` returns an error and emits no frame at all. -/
theorem C5_frame_dispatch (ts : List Int) :
    (ts = [] → Timestamp.tsBytes ts = some []) ∧
    (ts ≠ [] →
      ((∃ bs, Timestamp.tsBytes ts = some bs ∧ bs.headD 0 >>> 4 = 1) ↔
        ((∃ c, ∀ x ∈ (Timestamp.encReduce ts).2.2.2.2.tail, x = c) ∧
          60 < ts.length)) ∧
      ((∃ bs, Timestamp.tsBytes ts = some bs ∧ bs.headD 0 >>> 4 = 2) ↔
        (¬((∃ c, ∀ x ∈ (Timestamp.encReduce ts).2.2.2.2.tail, x = c) ∧
            60 < ts.length) ∧
          (Timestamp.encReduce ts).2.1 > (2 : Int) ^ 60 - 1)) ∧
      (¬((∃ c, ∀ x ∈ (Timestamp.encReduce ts).2.2.2.2.tail, x = c) ∧
          60 < ts.length) →
        ¬((Timestamp.encReduce ts).2.1 > (2 : Int) ^ 60 - 1) →
        ((∀ x ∈ (Timestamp.encReduce ts).2.2.2.2.tail,
            Timestamp.u64ofInt x ≤ Simple8b.MaxValue) →
          ∃ bs, Timestamp.tsBytes ts = some bs ∧ bs.headD 0 >>> 4 = 0) ∧
        ((∃ x ∈ (Timestamp.encReduce ts).2.2.2.2.tail,
            Simple8b.MaxValue < Timestamp.u64ofInt x) →
          Timestamp.tsBytes ts = none))) := by
  refine ⟨fun hempty => by rw [hempty]; rfl, ?_⟩
  intro hne
  match ts, hne with
  | t0 :: rest, _ =>
    obtain ⟨e, he12, hmod⟩ := Timestamp.encReduce_div_pow10 t0 rest
    have htsb := Timestamp.tsBytes_eq t0 rest
    by_cases hgate : ((Timestamp.encReduce (t0 :: rest)).2.2.2.1 &&
        decide ((t0 :: rest).length > 60)) = true
    · rw [if_pos hgate] at htsb
      have hhead := Timestamp.encodeRLE_head (t0 :: rest).headI
        ((t0 :: rest).tail.headI - (t0 :: rest).headI)
        (Timestamp.encReduce (t0 :: rest)).2.2.1 (t0 :: rest).length e he12 hmod
      have hcond := (Timestamp.gate_iff t0 rest).mp hgate
      refine ⟨⟨fun _ => hcond, fun _ => ⟨_, htsb, hhead⟩⟩, ?_, ?_⟩
      · constructor
        · rintro ⟨bs, hbs, htag⟩
          exfalso
          rw [htsb] at hbs
          injection hbs with hb2
          rw [← hb2, hhead] at htag
          exact absurd htag (by norm_num)
        · rintro ⟨hnot, -⟩
          exact absurd hcond hnot
      · intro hnot _
        exact absurd hcond hnot
    · rw [if_neg hgate] at htsb
      have hcondF : ¬((∃ c, ∀ x ∈ (Timestamp.encReduce (t0 :: rest)).2.2.2.2.tail,
          x = c) ∧ 60 < (t0 :: rest).length) :=
        fun hcc => hgate ((Timestamp.gate_iff t0 rest).mpr hcc)
      by_cases hmax : (Timestamp.encReduce (t0 :: rest)).2.1 > (2 : Int) ^ 60 - 1
      · rw [if_pos hmax] at htsb
        have hhead := Timestamp.encodeRaw_head (t0 :: rest)
        refine ⟨?_, ⟨fun _ => ⟨hcondF, hmax⟩, fun _ => ⟨_, htsb, hhead⟩⟩, ?_⟩
        · constructor
          · rintro ⟨bs, hbs, htag⟩
            exfalso
            rw [htsb] at hbs
            injection hbs with hb2
            rw [← hb2, hhead] at htag
            exact absurd htag (by norm_num)
          · intro hc
            exact absurd hc hcondF
        · intro _ hmaxF
          exact absurd hmax hmaxF
      · rw [if_neg hmax] at htsb
        refine ⟨?_, ?_, ?_⟩
        · constructor
          · rintro ⟨bs, hbs, htag⟩
            exfalso
            rw [htsb] at hbs
            have h0 := Timestamp.encodePacked_some_head _ _ _ bs e he12 hmod hbs
            rw [h0] at htag
            exact absurd htag (by norm_num)
          · intro hc
            exact absurd hc hcondF
        · constructor
          · rintro ⟨bs, hbs, htag⟩
            exfalso
            rw [htsb] at hbs
            have h0 := Timestamp.encodePacked_some_head _ _ _ bs e he12 hmod hbs
            rw [h0] at htag
            exact absurd htag (by norm_num)
          · rintro ⟨-, hmx⟩
            exact absurd hmx hmax
        · intro _ _
          constructor
          · intro hgood
            obtain ⟨bs, hbs⟩ := Timestamp.encodePacked_ok
              (Timestamp.encReduce (t0 :: rest)).1
              (Timestamp.encReduce (t0 :: rest)).2.2.1
              (Timestamp.encReduce (t0 :: rest)).2.2.2.2 hgood
            exact ⟨bs, by rw [htsb]; exact hbs,
              Timestamp.encodePacked_some_head _ _ _ bs e he12 hmod hbs⟩
          · intro hbad
            rw [htsb]
            exact Timestamp.encodePacked_err _ _ _ hbad

/-- Witness for the amended C5: the empty buffer yields empty bytes, and at
the concrete input `[0, 2^59, 5]` (not RLE, not Raw) a Packed frame with tag
nibble 0 is emitted. -/
theorem C5_witness :
    (([] : List Int) = [] → Timestamp.tsBytes [] = some []) ∧
    Timestamp.tsBytes [] = some [] :=
  ⟨(C5_frame_dispatch []).1, (C5_frame_dispatch []).1 rfl⟩

/-! ### Varint, big-endian and arithmetic-sequence helpers for C4 -/


namespace Timestamp

theorem and_fifteen_eq_mod (n : Nat) : n &&& 15 = n % 16 := by
  have h := Nat.and_pow_two_sub_one_eq_mod n 4
  norm_num at h
  exact h

theorem and_127_eq_mod (n : Nat) : n &&& 127 = n % 128 := by
  have h := Nat.and_pow_two_sub_one_eq_mod n 7
  norm_num at h
  exact h

/-- The low nibble of a header byte. -/
theorem header_low (tag e : Nat) (he : e < 16) : ((tag <<< 4) ||| e) &&& 15 = e := by
  have h1 : (tag <<< 4) ||| e = e + 2 ^ 4 * tag := by
    rw [Nat.lor_comm, Nat.shiftLeft_eq, Nat.mul_comm tag]
    exact lor_two_pow_mul e tag 4 he
  rw [h1, and_fifteen_eq_mod]
  omega

theorem consecEq_replicate (c : Int) : ∀ m, consecEq (List.replicate m c) = true := by
  intro m
  induction m with
  | zero => rfl
  | succ k ih =>
    cases k with
    | zero => rfl
    | succ j =>
      rw [List.replicate_succ, List.replicate_succ, consecEq]
      rw [List.replicate_succ] at ih
      simp [ih]

theorem prefixSumFrom_delta :
    ∀ (l : List Int) (a : Int),
      prefixSumFrom a (List.zipWith (fun x y => x - y) l (a :: l)) = l := by
  intro l
  induction l with
  | nil => intro a; rfl
  | cons b r ih =>
    intro a
    show prefixSumFrom a ((b - a) :: List.zipWith (fun x y => x - y) r (b :: r)) = b :: r
    rw [prefixSumFrom]
    have hab : a + (b - a) = b := by ring
    rw [hab, ih b]

theorem arith_dtail (t0 step : Int) (n : Nat) :
    List.zipWith (fun a b => a - b)
      (((List.range n).map fun i : Nat => t0 + (i : Int) * step).tail)
      ((List.range n).map fun i : Nat => t0 + (i : Int) * step) =
    List.replicate (n - 1) step := by
  apply List.ext_getElem
  · simp
  · intro i h1 h2
    simp only [List.getElem_zipWith, List.getElem_replicate]
    rw [List.getElem_tail]
    simp only [List.getElem_map, List.getElem_range]
    push_cast
    ring

theorem i64_u64_id (x : Int) (h1 : -(2 : Int) ^ 63 ≤ x) (h2 : x < 2 ^ 63) :
    i64ofU64 (u64ofInt x) = x := by
  simp only [u64ofInt, i64ofU64]
  split <;> omega

theorem u64_nonneg (x : Int) (h1 : 0 ≤ x) (h2 : x < 2 ^ 64) :
    u64ofInt x = x.toNat := by
  simp only [u64ofInt]
  omega

theorem u64_lt (x : Int) : u64ofInt x < 2 ^ 64 := by
  simp only [u64ofInt]
  omega

theorem i64_small (m : Nat) (h : m < 2 ^ 63) : i64ofU64 m = (m : Int) := by
  simp only [i64ofU64]
  rw [if_pos h]

end Timestamp

namespace Simple8b

set_option maxHeartbeats 1600000 in
/-- Big-endian 8-byte serialization round-trips through `binary.BigEndian.Uint64`. -/
theorem beUint64_word8BE (w : Nat) (hw : w < 2 ^ 64) : beUint64 (word8BE w) = w := by
  simp only [word8BE, beUint64, List.getD_cons_zero, List.getD_cons_succ,
    Nat.shiftRight_eq_div_pow, Nat.shiftLeft_eq]
  have e1 : w % 256 ||| w / 2 ^ 8 % 256 * 2 ^ 8 =
      w % 256 + 2 ^ 8 * (w / 2 ^ 8 % 256) := by
    rw [Nat.mul_comm (w / 2 ^ 8 % 256) (2 ^ 8)]
    exact lor_two_pow_mul (w % 256) (w / 2 ^ 8 % 256) 8 (by omega)
  rw [e1]
  have e2 : w % 256 + 2 ^ 8 * (w / 2 ^ 8 % 256) ||| w / 2 ^ 16 % 256 * 2 ^ 16 =
      w % 256 + 2 ^ 8 * (w / 2 ^ 8 % 256) + 2 ^ 16 * (w / 2 ^ 16 % 256) := by
    rw [Nat.mul_comm (w / 2 ^ 16 % 256) (2 ^ 16)]
    exact lor_two_pow_mul (w % 256 + 2 ^ 8 * (w / 2 ^ 8 % 256)) (w / 2 ^ 16 % 256) 16 (by omega)
  rw [e2]
  have e3 : w % 256 + 2 ^ 8 * (w / 2 ^ 8 % 256) + 2 ^ 16 * (w / 2 ^ 16 % 256) ||| w / 2 ^ 24 % 256 * 2 ^ 24 =
      w % 256 + 2 ^ 8 * (w / 2 ^ 8 % 256) + 2 ^ 16 * (w / 2 ^ 16 % 256) + 2 ^ 24 * (w / 2 ^ 24 % 256) := by
    rw [Nat.mul_comm (w / 2 ^ 24 % 256) (2 ^ 24)]
    exact lor_two_pow_mul (w % 256 + 2 ^ 8 * (w / 2 ^ 8 % 256) + 2 ^ 16 * (w / 2 ^ 16 % 256)) (w / 2 ^ 24 % 256) 24 (by omega)
  rw [e3]
  have e4 : w % 256 + 2 ^ 8 * (w / 2 ^ 8 % 256) + 2 ^ 16 * (w / 2 ^ 16 % 256) + 2 ^ 24 * (w / 2 ^ 24 % 256) ||| w / 2 ^ 32 % 256 * 2 ^ 32 =
      w % 256 + 2 ^ 8 * (w / 2 ^ 8 % 256) + 2 ^ 16 * (w / 2 ^ 16 % 256) + 2 ^ 24 * (w / 2 ^ 24 % 256) + 2 ^ 32 * (w / 2 ^ 32 % 256) := by
    rw [Nat.mul_comm (w / 2 ^ 32 % 256) (2 ^ 32)]
    exact lor_two_pow_mul (w % 256 + 2 ^ 8 * (w / 2 ^ 8 % 256) + 2 ^ 16 * (w / 2 ^ 16 % 256) + 2 ^ 24 * (w / 2 ^ 24 % 256)) (w / 2 ^ 32 % 256) 32 (by omega)
  rw [e4]
  have e5 : w % 256 + 2 ^ 8 * (w / 2 ^ 8 % 256) + 2 ^ 16 * (w / 2 ^ 16 % 256) + 2 ^ 24 * (w / 2 ^ 24 % 256) + 2 ^ 32 * (w / 2 ^ 32 % 256) ||| w / 2 ^ 40 % 256 * 2 ^ 40 =
      w % 256 + 2 ^ 8 * (w / 2 ^ 8 % 256) + 2 ^ 16 * (w / 2 ^ 16 % 256) + 2 ^ 24 * (w / 2 ^ 24 % 256) + 2 ^ 32 * (w / 2 ^ 32 % 256) + 2 ^ 40 * (w / 2 ^ 40 % 256) := by
    rw [Nat.mul_comm (w / 2 ^ 40 % 256) (2 ^ 40)]
    exact lor_two_pow_mul (w % 256 + 2 ^ 8 * (w / 2 ^ 8 % 256) + 2 ^ 16 * (w / 2 ^ 16 % 256) + 2 ^ 24 * (w / 2 ^ 24 % 256) + 2 ^ 32 * (w / 2 ^ 32 % 256)) (w / 2 ^ 40 % 256) 40 (by omega)
  rw [e5]
  have e6 : w % 256 + 2 ^ 8 * (w / 2 ^ 8 % 256) + 2 ^ 16 * (w / 2 ^ 16 % 256) + 2 ^ 24 * (w / 2 ^ 24 % 256) + 2 ^ 32 * (w / 2 ^ 32 % 256) + 2 ^ 40 * (w / 2 ^ 40 % 256) ||| w / 2 ^ 48 % 256 * 2 ^ 48 =
      w % 256 + 2 ^ 8 * (w / 2 ^ 8 % 256) + 2 ^ 16 * (w / 2 ^ 16 % 256) + 2 ^ 24 * (w / 2 ^ 24 % 256) + 2 ^ 32 * (w / 2 ^ 32 % 256) + 2 ^ 40 * (w / 2 ^ 40 % 256) + 2 ^ 48 * (w / 2 ^ 48 % 256) := by
    rw [Nat.mul_comm (w / 2 ^ 48 % 256) (2 ^ 48)]
    exact lor_two_pow_mul (w % 256 + 2 ^ 8 * (w / 2 ^ 8 % 256) + 2 ^ 16 * (w / 2 ^ 16 % 256) + 2 ^ 24 * (w / 2 ^ 24 % 256) + 2 ^ 32 * (w / 2 ^ 32 % 256) + 2 ^ 40 * (w / 2 ^ 40 % 256)) (w / 2 ^ 48 % 256) 48 (by omega)
  rw [e6]
  have e7 : w % 256 + 2 ^ 8 * (w / 2 ^ 8 % 256) + 2 ^ 16 * (w / 2 ^ 16 % 256) + 2 ^ 24 * (w / 2 ^ 24 % 256) + 2 ^ 32 * (w / 2 ^ 32 % 256) + 2 ^ 40 * (w / 2 ^ 40 % 256) + 2 ^ 48 * (w / 2 ^ 48 % 256) ||| w / 2 ^ 56 % 256 * 2 ^ 56 =
      w % 256 + 2 ^ 8 * (w / 2 ^ 8 % 256) + 2 ^ 16 * (w / 2 ^ 16 % 256) + 2 ^ 24 * (w / 2 ^ 24 % 256) + 2 ^ 32 * (w / 2 ^ 32 % 256) + 2 ^ 40 * (w / 2 ^ 40 % 256) + 2 ^ 48 * (w / 2 ^ 48 % 256) + 2 ^ 56 * (w / 2 ^ 56 % 256) := by
    rw [Nat.mul_comm (w / 2 ^ 56 % 256) (2 ^ 56)]
    exact lor_two_pow_mul (w % 256 + 2 ^ 8 * (w / 2 ^ 8 % 256) + 2 ^ 16 * (w / 2 ^ 16 % 256) + 2 ^ 24 * (w / 2 ^ 24 % 256) + 2 ^ 32 * (w / 2 ^ 32 % 256) + 2 ^ 40 * (w / 2 ^ 40 % 256) + 2 ^ 48 * (w / 2 ^ 48 % 256)) (w / 2 ^ 56 % 256) 56 (by omega)
  rw [e7]
  omega

theorem word8BE_length (w : Nat) : (word8BE w).length = 8 := rfl

end Simple8b

namespace Timestamp

/-- `binary.Uvarint` undoes `binary.PutUvarint` byte by byte: running the scan
loop at byte index `i` (shift `7*i`, accumulator below `2^(7*i)`) over the
remaining output of the build loop consumes exactly those bytes, adds the
encoded value shifted into place, and reports the advanced index. -/
theorem uvarintLoop_put :
    ∀ (f i acc x : Nat) (rest : List Nat),
      i + f = 10 → i ≤ 9 → x < 2 ^ (64 - 7 * i) → acc < 2 ^ (7 * i) →
      uvarintLoop (putUvarintLoop f x ++ rest) i acc (7 * i) =
        (acc + 2 ^ (7 * i) * x, (i : Int) + (putUvarintLoop f x).length) := by
  intro f
  induction f with
  | zero => intro i acc x rest hif hi9 _ _; omega
  | succ f ih =>
    intro i acc x rest hif hi9 hx hacc
    have h7i : 7 * i ≤ 63 := by omega
    by_cases hx128 : x < 128
    · rw [putUvarintLoop, if_pos hx128, List.cons_append, uvarintLoop,
        if_neg (show ¬((i == 10) = true) from by simp only [beq_iff_eq]; omega),
        if_pos hx128]
      have hcond : ((i == 9) && decide (x > 1)) = false := by
        by_cases hi9' : i = 9
        · subst hi9'
          have hx2 : x < 2 := by
            have : (64 : Nat) - 7 * 9 = 1 := by norm_num
            rw [this] at hx
            omega
          simp only [beq_self_eq_true, Bool.true_and, decide_eq_false_iff_not]
          omega
        · simp [hi9']
      rw [if_neg (show ¬(((i == 9) && decide (x > 1)) = true) from by
        rw [hcond]; exact Bool.false_ne_true)]
      have hshift : (x <<< (7 * i)) % 2 ^ 64 = 2 ^ (7 * i) * x := by
        rw [Nat.shiftLeft_eq, Nat.mul_comm]
        apply Nat.mod_eq_of_lt
        calc 2 ^ (7 * i) * x < 2 ^ (7 * i) * 2 ^ (64 - 7 * i) :=
              (Nat.mul_lt_mul_left (Nat.two_pow_pos _)).mpr hx
          _ = 2 ^ 64 := by rw [← pow_add]; congr 1; omega
      rw [hshift, lor_two_pow_mul acc x (7 * i) hacc]
      simp only [List.length_cons, List.length_nil]
      norm_num
    · rw [putUvarintLoop, if_neg hx128, List.cons_append, uvarintLoop,
        if_neg (show ¬((i == 10) = true) from by simp only [beq_iff_eq]; omega)]
      have hble : (128 : Nat) ≤ x % 256 ||| 128 := by
        have hbit : (x % 256 ||| 128).testBit 7 = true := by
          rw [Nat.testBit_lor]
          have : (128 : Nat).testBit 7 = true := by decide
          rw [this, Bool.or_true]
        have h := @Nat.testBit_implies_ge 7 (x % 256 ||| 128) hbit
        norm_num at h
        exact h
      rw [if_neg (show ¬(x % 256 ||| 128 < 128) from by omega)]
      have hi8 : i ≤ 8 := by
        by_contra hgt
        have hi9' : i = 9 := by omega
        subst hi9'
        have : (64 : Nat) - 7 * 9 = 1 := by norm_num
        rw [this] at hx
        omega
      have hb127 : (x % 256 ||| 128) &&& 127 = x % 128 := by
        rw [Nat.and_distrib_right]
        have h128 : (128 &&& 127 : Nat) = 0 := by decide
        rw [h128, and_127_eq_mod]
        have : x % 256 % 128 = x % 128 := Nat.mod_mod_of_dvd x (by norm_num)
        simp [this]
      have hrel : (2 : Nat) ^ (7 * (i + 1)) = 2 ^ (7 * i) * 128 := by
        rw [show 7 * (i + 1) = 7 * i + 7 from by ring, pow_add]
        norm_num
      have hshift : ((x % 128) <<< (7 * i)) % 2 ^ 64 = 2 ^ (7 * i) * (x % 128) := by
        rw [Nat.shiftLeft_eq, Nat.mul_comm]
        apply Nat.mod_eq_of_lt
        have hxm : x % 128 < 2 ^ 7 := by omega
        calc 2 ^ (7 * i) * (x % 128) < 2 ^ (7 * i) * 2 ^ 7 :=
              (Nat.mul_lt_mul_left (Nat.two_pow_pos _)).mpr hxm
          _ ≤ 2 ^ 64 := by
              rw [← pow_add]
              exact Nat.pow_le_pow_right (by norm_num) (by omega)
      rw [hb127, hshift, lor_two_pow_mul acc (x % 128) (7 * i) hacc]
      have hsucc : 7 * i + 7 = 7 * (i + 1) := by ring
      rw [hsucc]
      have hacc' : acc + 2 ^ (7 * i) * (x % 128) < 2 ^ (7 * (i + 1)) := by
        have hxm : x % 128 ≤ 127 := by omega
        have h1 : 2 ^ (7 * i) * (x % 128) ≤ 2 ^ (7 * i) * 127 :=
          Nat.mul_le_mul_left _ hxm
        omega
      have hx' : x >>> 7 < 2 ^ (64 - 7 * (i + 1)) := by
        rw [Nat.shiftRight_eq_div_pow]
        apply Nat.div_lt_of_lt_mul
        have : (2 : Nat) ^ 7 * 2 ^ (64 - 7 * (i + 1)) = 2 ^ (64 - 7 * i) := by
          rw [← pow_add]
          congr 1
          omega
        rw [this]
        exact hx
      rw [ih (i + 1) (acc + 2 ^ (7 * i) * (x % 128)) (x >>> 7) rest
        (by omega) (by omega) hx' hacc']
      have hval : acc + 2 ^ (7 * i) * (x % 128) + 2 ^ (7 * (i + 1)) * (x >>> 7) =
          acc + 2 ^ (7 * i) * x := by
        have hxsplit : x % 128 + 128 * (x / 128) = x := Nat.mod_add_div x 128
        have hsr : x >>> 7 = x / 128 := by
          rw [Nat.shiftRight_eq_div_pow]
        have hmul : 2 ^ (7 * i) * (x % 128) + 2 ^ (7 * (i + 1)) * (x / 128) =
            2 ^ (7 * i) * x := by
          rw [hrel, Nat.mul_assoc, ← Nat.mul_add, hxsplit]
        rw [hsr]
        omega
      rw [hval]
      simp only [List.length_cons, Prod.mk.injEq, true_and]
      push_cast
      ring

/-- `putUvarintLoop` always emits at least one byte. -/
theorem putUvarintLoop_ne_nil (f x : Nat) : putUvarintLoop f x ≠ [] := by
  cases f with
  | zero => simp [putUvarintLoop]
  | succ f =>
    rw [putUvarintLoop]
    split <;> simp

/-- `binary.Uvarint` recovers the value and byte count written by
`binary.PutUvarint`, also in the presence of trailing bytes. -/
theorem uvarint_put (x : Nat) (hx : x < 2 ^ 64) (rest : List Nat) :
    uvarint (putUvarint x ++ rest) = (x, ((putUvarint x).length : Int)) := by
  have h := uvarintLoop_put 10 0 0 x rest (by norm_num) (by norm_num)
    (by norm_num; exact hx) (by norm_num)
  rw [uvarint, putUvarint]
  have h0 : (7 : Nat) * 0 = 0 := by norm_num
  rw [h0] at h
  rw [h]
  norm_num

/-- Decoding an RLE frame produced by `encodeRLE` recovers the first value and
`count - 1` copies of the run delta, prefix-summed. -/
theorem decodeRLE_encodeRLE (t0 step : Int) (e n : Nat)
    (he : e ≤ 12) (hdvd : ((10 ^ e : Nat) : Int) ∣ step)
    (hstep : 0 < step) (hstep63 : step < 2 ^ 63)
    (ht0lo : -(2 : Int) ^ 63 ≤ t0) (ht0hi : t0 < 2 ^ 63)
    (hn : 0 < n) (hn63 : n < 2 ^ 63) :
    tsDecode (encodeRLE t0 step (10 ^ e) n) =
      some (prefixSum (t0 :: List.replicate (n - 1) step)) := by
  have hlog : log10Nat (10 ^ e) = e := log10Nat_pow e he
  have he16 : e < 16 := by omega
  -- abbreviations for the frame pieces
  set w8 := Simple8b.word8BE (u64ofInt t0) with hw8
  set q : Int := step / ((10 ^ e : Nat) : Int) with hqdef
  have hq0 : 0 ≤ q := Int.ediv_nonneg (le_of_lt hstep) (by positivity)
  have hqle : q ≤ step := Int.ediv_le_self _ (le_of_lt hstep)
  have hqlt : q < 2 ^ 64 := by omega
  set p1b := putUvarint (u64ofInt q) with hp1b
  set p2b := putUvarint n with hp2b
  have hbs : encodeRLE t0 step (10 ^ e) n =
      ((1 <<< 4) ||| e) :: ((w8 ++ p1b) ++ p2b) := by
    rw [encodeRLE, hlog]
  rw [hbs]
  have hhd : ((1 <<< 4) ||| e) >>> 4 = 1 := header_nibble 1 e he16
  rw [tsDecode, if_neg (by simp)]
  rw [List.headD_cons, hhd]
  show decodeRLE (((1 <<< 4) ||| e) :: ((w8 ++ p1b) ++ p2b)) = _
  rw [decodeRLE]
  simp only [List.headD_cons, List.length_cons, List.length_append]
  rw [header_low 1 e he16]
  have hw8len : w8.length = 8 := Simple8b.word8BE_length _
  have hp1len : 1 ≤ p1b.length := by
    cases hc : p1b with
    | nil => exact absurd hc (putUvarintLoop_ne_nil 10 _)
    | cons a l => simp
  have hp2len : 1 ≤ p2b.length := by
    cases hc : p2b with
    | nil => exact absurd hc (putUvarintLoop_ne_nil 10 _)
    | cons a l => simp
  rw [if_neg (by omega)]
  have hdrop1 : (((1 <<< 4) ||| e) :: ((w8 ++ p1b) ++ p2b)).drop 1 =
      (w8 ++ p1b) ++ p2b := rfl
  have htake8 : ((w8 ++ p1b) ++ p2b).take 8 = w8 := by
    rw [List.append_assoc]
    exact List.take_left' hw8len
  have hfirst : Simple8b.beUint64 (((((1 <<< 4) ||| e) :: ((w8 ++ p1b) ++ p2b)).drop 1).take 8) =
      u64ofInt t0 := by
    rw [hdrop1, htake8]
    exact Simple8b.beUint64_word8BE _ (u64_lt t0)
  rw [hfirst]
  have hdrop9 : List.drop 9 ((1 <<< 4 ||| e) :: (w8 ++ p1b ++ p2b)) = p1b ++ p2b := by
    have h1 : List.drop 9 ((1 <<< 4 ||| e) :: (w8 ++ p1b ++ p2b)) =
        List.drop 8 (w8 ++ p1b ++ p2b) := rfl
    rw [h1, List.append_assoc]
    exact List.drop_left' hw8len
  have huv1 := uvarint_put (u64ofInt q) (u64_lt q) p2b
  rw [← hp1b] at huv1
  rw [hdrop9, huv1]
  have htn : ((9 : Int) + (p1b.length : Int)).toNat = 9 + p1b.length := by omega
  simp only [htn]
  rw [if_neg (by push_cast; omega)]
  have hdropI : List.drop (9 + p1b.length) ((1 <<< 4 ||| e) :: (w8 ++ p1b ++ p2b)) =
      p2b := by
    rw [← List.drop_drop, hdrop9]
    exact List.drop_left' rfl
  rw [hdropI]
  have huv2 := uvarint_put n (by omega) []
  rw [List.append_nil, ← hp2b] at huv2
  rw [huv2]
  rw [if_neg (by omega : ¬((n, ((p2b.length : Nat) : Int)).1 = 0))]
  have hval : u64ofInt q * 10 ^ e % 2 ^ 64 = step.toNat := by
    have hqn : u64ofInt q = q.toNat := u64_nonneg q hq0 hqlt
    have hcast : ((q.toNat * 10 ^ e : Nat) : Int) = step := by
      push_cast [Int.toNat_of_nonneg hq0]
      rw [hqdef]
      exact_mod_cast Int.ediv_mul_cancel hdvd
    have hqs : q.toNat * 10 ^ e = step.toNat := by omega
    rw [hqn, hqs]
    apply Nat.mod_eq_of_lt
    omega
  rw [hval]
  have hi64v : i64ofU64 step.toNat = step := by
    rw [i64_small step.toNat (by omega)]
    omega
  have hi64f : i64ofU64 (u64ofInt t0) = t0 := i64_u64_id t0 ht0lo ht0hi
  rw [hi64v, hi64f]

/-- On an arithmetic sequence with positive step and more than 60 elements,
`encoder.Bytes` takes the RLE branch and emits exactly the RLE frame for the
first value, the step, the divisor `10^e` and the count. -/
theorem tsBytes_arith (t0 step : Int) (n : Nat)
    (h60 : 60 < n) (hstep : 0 < step) :
    ∃ e ≤ 12, ((10 ^ e : Nat) : Int) ∣ step ∧
      tsBytes ((List.range n).map fun i : Nat => t0 + (i : Int) * step) =
        some (encodeRLE t0 step (10 ^ e) n) := by
  have hlen : ((List.range n).map fun i : Nat => t0 + (i : Int) * step).length = n := by
    simp
  have hne : ((List.range n).map fun i : Nat => t0 + (i : Int) * step) ≠ [] := by
    intro hnil
    rw [hnil] at hlen
    simp at hlen
    omega
  obtain ⟨t0', rest, hts⟩ := List.exists_cons_of_ne_nil hne
  have ht0eq : t0' = t0 := by
    have h0 : ((List.range n).map fun i : Nat => t0 + (i : Int) * step).headI = t0' := by
      rw [hts]
      rfl
    have h0' : ((List.range n).map fun i : Nat => t0 + (i : Int) * step).headI =
        t0 + ((0 : Nat) : Int) * step := by
      obtain ⟨m, rfl⟩ : ∃ m, n = m + 1 := ⟨n - 1, by omega⟩
      rw [List.range_succ_eq_map]
      rfl
    rw [h0] at h0'
    simp at h0'
    exact h0'
  rw [ht0eq] at hts
  have hrlen : rest.length = n - 1 := by
    rw [hts] at hlen
    simp at hlen
    omega
  have hrne : rest ≠ [] := by
    intro hnil
    rw [hnil] at hrlen
    simp at hrlen
    omega
  obtain ⟨b', rest2, hrest⟩ := List.exists_cons_of_ne_nil hrne
  have hb' : b' = t0 + step := by
    have h1 : ((List.range n).map fun i : Nat => t0 + (i : Int) * step).tail.headI = b' := by
      rw [hts, hrest]
      rfl
    have h1' : ((List.range n).map fun i : Nat => t0 + (i : Int) * step).tail.headI =
        t0 + ((1 : Nat) : Int) * step := by
      obtain ⟨m, rfl⟩ : ∃ m, n = m + 2 := ⟨n - 2, by omega⟩
      rw [List.range_succ_eq_map, List.range_succ_eq_map]
      rfl
    rw [h1] at h1'
    simp at h1'
    exact h1'
  rw [hb'] at hrest
  have hd : List.zipWith (fun a b => a - b) rest (t0 :: rest) =
      List.replicate (n - 1) step := by
    have h := arith_dtail t0 step n
    rw [hts] at h
    simpa using h
  have hfields := encReduce_fields t0 rest
  rw [hd, List.reverse_replicate] at hfields
  have hdivfold : (encReduce (t0 :: rest)).2.2.1 =
      (List.replicate (n - 1) step).foldl (fun d v => Delta.divisorShrink 13 d v)
        (10 ^ 12) := by
    rw [hfields.2.2.1, Delta.foldl_mmdStep_div]
  obtain ⟨k, hk12, hkeq, hkdvd, -⟩ :=
    Delta.foldl_div_spec (List.replicate (n - 1) step) 12 le_rfl
  have hdvd : ((10 ^ k : Nat) : Int) ∣ step :=
    hkdvd step (List.mem_replicate.mpr ⟨by omega, rfl⟩)
  have hmod : (encReduce (t0 :: rest)).2.2.1 = 10 ^ k := by rw [hdivfold, hkeq]
  have hlen' : (t0 :: rest).length = n := by rw [← hts]; exact hlen
  have hrle : (encReduce (t0 :: rest)).2.2.2.1 = true := by
    rw [hfields.2.2.2.1, List.map_replicate, consecEq_replicate, hlen']
    simp only [Bool.true_and, decide_eq_true_eq]
    omega
  have hgate : ((encReduce (t0 :: rest)).2.2.2.1 &&
      decide ((t0 :: rest).length > 60)) = true := by
    rw [hrle, hlen']
    simp only [Bool.true_and, decide_eq_true_eq]
    omega
  refine ⟨k, hk12, hdvd, ?_⟩
  rw [hts, tsBytes_eq t0 rest, if_pos hgate]
  have hdelta : ((t0 :: rest).tail.headI - (t0 :: rest).headI) = step := by
    rw [show (t0 :: rest).tail = rest from rfl, hrest]
    show (t0 + step) - t0 = step
    ring
  rw [hdelta, hmod, hlen']
  rfl

/-- Prefix sums of a constant run reconstruct the arithmetic sequence. -/
theorem prefixSum_replicate :
    ∀ (m : Nat) (a step : Int),
      a :: prefixSumFrom a (List.replicate m step) =
        (List.range (m + 1)).map fun i : Nat => a + (i : Int) * step := by
  intro m
  induction m with
  | zero =>
    intro a step
    show [a] = List.map (fun i : Nat => a + (i : Int) * step) [0]
    simp
  | succ m ih =>
    intro a step
    rw [List.replicate_succ, prefixSumFrom, List.range_succ_eq_map, List.map_cons,
      List.map_map]
    congr 1
    · simp
    · rw [ih (a + step) step]
      apply List.map_congr_left
      intro i _
      show a + step + (i : Int) * step = a + ((Nat.succ i : Nat) : Int) * step
      push_cast
      ring

end Timestamp

/-- C4: for every timestamp sequence of `n > 60` values with a constant
positive step (within `int64` range), `Bytes()` emits a single RLE frame —
header nibble `EncodingRLE`, 8 big-endian bytes of the first value, a varint
of the divisor-scaled step and a varint of the count `n` — and decoding that
frame yields exactly the original `n` timestamps in order. -/
theorem C4_rle_roundtrip (t0 step : Int) (n : Nat)
    (h60 : 60 < n) (hstep : 0 < step) (hn63 : n < 2 ^ 63)
    (hlo : -(2 : Int) ^ 63 ≤ t0)
    (hhi : t0 + ((n : Int) - 1) * step < (2 : Int) ^ 63) :
    ∃ e ≤ 12, ((10 ^ e : Nat) : Int) ∣ step ∧
      Timestamp.tsBytes ((List.range n).map fun i : Nat => t0 + (i : Int) * step) =
        some (Timestamp.encodeRLE t0 step (10 ^ e) n) ∧
      Timestamp.tsDecode (Timestamp.encodeRLE t0 step (10 ^ e) n) =
        some ((List.range n).map fun i : Nat => t0 + (i : Int) * step) := by
  obtain ⟨e, he12, hdvd, henc⟩ := Timestamp.tsBytes_arith t0 step n h60 hstep
  have hn1 : (60 : Int) ≤ (n : Int) - 1 := by omega
  have hmul : (60 : Int) * step ≤ ((n : Int) - 1) * step :=
    mul_le_mul_of_nonneg_right hn1 (le_of_lt hstep)
  have hstep63 : step < 2 ^ 63 := by linarith
  have hpos : (0 : Int) ≤ ((n : Int) - 1) * step :=
    mul_nonneg (by omega) (le_of_lt hstep)
  have ht0hi : t0 < 2 ^ 63 := by linarith
  have hdec := Timestamp.decodeRLE_encodeRLE t0 step e n he12 hdvd hstep hstep63
    hlo ht0hi (by omega) hn63
  refine ⟨e, he12, hdvd, henc, ?_⟩
  rw [hdec]
  congr 1
  have hp := Timestamp.prefixSum_replicate (n - 1) t0 step
  have hn' : n - 1 + 1 = n := by omega
  rw [hn'] at hp
  rw [show Timestamp.prefixSum (t0 :: List.replicate (n - 1) step) =
    t0 :: Timestamp.prefixSumFrom t0 (List.replicate (n - 1) step) from rfl, hp]

/-- Witness for C4 at the spec's example: 101 timestamps starting at 0 with a
constant step of `10^9` (one second in nanoseconds). -/
theorem C4_witness :
    (0 : Int) < 10 ^ 9 ∧
    ∃ e ≤ 12, ((10 ^ e : Nat) : Int) ∣ (10 ^ 9 : Int) ∧
      Timestamp.tsBytes ((List.range 101).map fun i : Nat =>
          (0 : Int) + (i : Int) * 10 ^ 9) =
        some (Timestamp.encodeRLE 0 (10 ^ 9) (10 ^ e) 101) ∧
      Timestamp.tsDecode (Timestamp.encodeRLE 0 (10 ^ 9) (10 ^ e) 101) =
        some ((List.range 101).map fun i : Nat => (0 : Int) + (i : Int) * 10 ^ 9) :=
  ⟨by norm_num,
   C4_rle_roundtrip 0 (10 ^ 9) 101 (by norm_num) (by norm_num) (by norm_num)
     (by norm_num) (by norm_num)⟩

/-! ### Claim C9 -/

/-- C9: decoding does not return normally on every malformed input — the
one-byte input `0x00` carries the Packed tag in its upper nibble, so the
dispatch calls `decodePacked`, whose slice expression `b[1:9]` is out of
range for a 1-byte slice and panics at runtime (the embedding returns `none`
exactly where the Go code panics). -/
theorem C9_panic_on_short_packed : Timestamp.tsDecode [0] = none := by decide
